import Mathlib

/-!
levelar: a read-only goleveldb storage over a saar archive

Shallow embedding of `storage.go`.

* Go strings are lists of runes (`GoString`); the archive names and pointer
  contents are taken to be valid UTF-8.
* `int64` values are `Int`; `strconv.ParseInt` carries the 64-bit range check.
* `fmt.Sscanf` is embedded for the two formats `fsParseName` uses, as the
  sequence of scanner steps `(*ss).doScanf` performs for them.
* The archive reader (`saar.Reader`) is external: it is a pair of a listing
  and an open-by-name function.
-/

namespace Levelar

/-- A Go string, as its sequence of runes. -/
abbrev GoString := List Char

/-- The newline rune. -/
def NL : Char := Char.ofNat 10

/-- The carriage-return rune. -/
def CR : Char := Char.ofNat 13

/-! ## storage.FileType and storage.FileDesc (goleveldb) -/

/-- The type storage.FileType: an int used as a bit mask. -/
abbrev FileType := Int

def TypeManifest : FileType := 1
def TypeJournal : FileType := 2
def TypeTable : FileType := 4
def TypeTemp : FileType := 8

/-- The type storage.FileDesc; `Typ` is the Go field `Type`, `Num` is an int64. -/
structure FileDesc where
  Typ : FileType
  Num : Int
deriving DecidableEq, Repr

/-! ## fmt.Sprintf for the verbs used -/

/-- Left padding with zeros up to a width. -/
def zeroPad (w : Nat) (ds : List Char) : List Char :=
  List.replicate (w - ds.length) '0' ++ ds

/-- The verb `%06d` applied to an int64: the sign counts in the width. -/
def fmtInt06 (n : Int) : GoString :=
  if n < 0 then '-' :: zeroPad 5 (Nat.toDigits 10 n.natAbs)
  else zeroPad 6 (Nat.toDigits 10 n.toNat)

/-- The verb `%d` applied to an int64. -/
def fmtInt (n : Int) : GoString :=
  if n < 0 then '-' :: Nat.toDigits 10 n.natAbs else Nat.toDigits 10 n.toNat

/-! ## strconv.ParseInt(s, 10, 64) -/

inductive NumError where
  | ErrSyntax
  | ErrRange
deriving DecidableEq, Repr

def isDecimalDigit (c : Char) : Bool := decide ('0' ≤ c) && decide (c ≤ '9')

def digitVal (c : Char) : Nat := c.toNat - 48

def maxUint64 : Nat := 2 ^ 64 - 1

/-- The digit loop of strconv.ParseUint for base 10 and bitSize 64. -/
def ParseUintLoop : List Char → Nat → Except NumError Nat
  | [], n => .ok n
  | c :: cs, n =>
    if !isDecimalDigit c then .error .ErrSyntax
    else if n ≥ maxUint64 / 10 + 1 then .error .ErrRange
    else
      let n1 := n * 10 + digitVal c
      if n1 > maxUint64 then .error .ErrRange
      else ParseUintLoop cs n1

def ParseUint (s : GoString) : Except NumError Nat :=
  if s = [] then .error .ErrSyntax else ParseUintLoop s 0

/-- The function strconv.ParseInt at base 10, bitSize 64: the error case keeps only the
kind of error, the callers never use the value returned with it. -/
def ParseInt (s : GoString) : Except NumError Int :=
  match s with
  | [] => .error .ErrSyntax
  | c :: cs =>
    let neg := decide (c = '-')
    let body := if c = '+' ∨ c = '-' then cs else c :: cs
    match ParseUint body with
    | .error .ErrSyntax => .error .ErrSyntax
    | .error .ErrRange => .error .ErrRange
    | .ok un =>
      if !neg && decide (un ≥ 2 ^ 63) then .error .ErrRange
      else if neg && decide (un > 2 ^ 63) then .error .ErrRange
      else .ok (if neg then - (un : Int) else (un : Int))

/-! ## The scanner of package fmt, as used by Sscanf -/

/-- The function fmt.isSpace: the table of space ranges, newline included. -/
def isSpace (c : Char) : Bool :=
  let r := c.toNat
  (decide (0x0009 ≤ r) && decide (r ≤ 0x000d)) || decide (r = 0x0020) || decide (r = 0x0085)
    || decide (r = 0x00a0) || decide (r = 0x1680)
    || (decide (0x2000 ≤ r) && decide (r ≤ 0x200a))
    || (decide (0x2028 ≤ r) && decide (r ≤ 0x2029))
    || decide (r = 0x202f) || decide (r = 0x205f) || decide (r = 0x3000)

/-- The method (*ss).SkipSpace with nlIsSpace = false (the Sscanf mode): the remaining
input, or `none` when it raises "unexpected newline". -/
def SkipSpace : List Char → Option (List Char)
  | [] => some []
  | c :: cs =>
    if c = CR ∧ cs.head? = some NL then SkipSpace cs
    else if c = NL then none
    else if !isSpace c then some (c :: cs)
    else SkipSpace cs

/-- The method (*ss).scanNumber over the decimal digits: the digits read and the rest,
`none` at end of input or when no digit comes first. -/
def scanNumber (s : List Char) : Option (List Char × List Char) :=
  if s.takeWhile isDecimalDigit = [] then none
  else some (s.takeWhile isDecimalDigit, s.dropWhile isDecimalDigit)

/-- The method (*ss).scanInt for the verb `d` and 64 bits: the value and the remaining
input, `none` when it raises. -/
def scanInt (s : List Char) : Option (Int × List Char) :=
  match SkipSpace s with
  | none => none
  | some [] => none
  | some (c :: cs) =>
    let sign : List Char := if c = '+' ∨ c = '-' then [c] else []
    let s2 := if c = '+' ∨ c = '-' then cs else c :: cs
    match scanNumber s2 with
    | none => none
    | some (ds, rest) =>
      match ParseInt (sign ++ ds) with
      | .error _ => none
      | .ok i => some (i, rest)

/-- The method (*ss).convertString for the verb `s`: the next space-delimited word and
the remaining input, `none` when it raises (newline or end of input). -/
def convertString (s : List Char) : Option (List Char × List Char) :=
  match SkipSpace s with
  | none => none
  | some [] => none
  | some s1 =>
    match SkipSpace s1 with
    | none => none
    | some s2 => some (s2.takeWhile (fun c => !isSpace c), s2.dropWhile (fun c => !isSpace c))

/-- What a call of Sscanf leaves behind: the count of operands stored, whether it
returned an error, and the two operands after the call. -/
structure ScanOut where
  n : Nat
  err : Bool
  Num : Int
  tail : GoString
deriving DecidableEq, Repr

/-- The call `fmt.Sscanf(name, "%d.%s", &fd.Num, &tail)`, with the operands' values
before the call. -/
def Sscanf_d_dot_s (name : GoString) (num0 : Int) (tail0 : GoString) : ScanOut :=
  match SkipSpace name with
  | none => ⟨0, true, num0, tail0⟩
  | some s0 =>
    match scanInt s0 with
    | none => ⟨0, true, num0, tail0⟩
    | some (i, s1) =>
      match s1 with
      | [] => ⟨1, true, i, tail0⟩
      | c :: s2 =>
        if c ≠ '.' then ⟨1, true, i, tail0⟩
        else
          match SkipSpace s2 with
          | none => ⟨1, true, i, tail0⟩
          | some s3 =>
            match convertString s3 with
            | none => ⟨1, true, i, tail0⟩
            | some (tok, _) => ⟨2, false, i, tok⟩

/-- The literal part of a format: every rune must be the next input rune. -/
def matchLiteral : List Char → List Char → Option (List Char)
  | [], s => some s
  | _ :: _, [] => none
  | f :: fs, c :: cs => if f = c then matchLiteral fs cs else none

/-- The call `fmt.Sscanf(name, "MANIFEST-%d%s", &fd.Num, &tail)`, with the operands'
values before the call. -/
def Sscanf_MANIFEST_d_s (name : GoString) (num0 : Int) (tail0 : GoString) : ScanOut :=
  match matchLiteral ['M', 'A', 'N', 'I', 'F', 'E', 'S', 'T', '-'] name with
  | none => ⟨0, true, num0, tail0⟩
  | some s0 =>
    match SkipSpace s0 with
    | none => ⟨0, true, num0, tail0⟩
    | some s1 =>
      match scanInt s1 with
      | none => ⟨0, true, num0, tail0⟩
      | some (i, s2) =>
        match SkipSpace s2 with
        | none => ⟨1, true, i, tail0⟩
        | some s3 =>
          match convertString s3 with
          | none => ⟨1, true, i, tail0⟩
          | some (tok, _) => ⟨2, false, i, tok⟩

/-! ## The name codec -/

/-- The function fsGenName; `none` is the panic on an invalid file type. -/
def fsGenName (fd : FileDesc) : Option GoString :=
  if fd.Typ = TypeManifest then
    some (['M', 'A', 'N', 'I', 'F', 'E', 'S', 'T', '-'] ++ fmtInt06 fd.Num)
  else if fd.Typ = TypeJournal then some (fmtInt06 fd.Num ++ ['.', 'l', 'o', 'g'])
  else if fd.Typ = TypeTable then some (fmtInt06 fd.Num ++ ['.', 'l', 'd', 'b'])
  else if fd.Typ = TypeTemp then some (fmtInt06 fd.Num ++ ['.', 't', 'm', 'p'])
  else none

def fsHasOldName (fd : FileDesc) : Bool := decide (fd.Typ = TypeTable)

/-- The function fsGenOldName; `none` is the panic of fsGenName. -/
def fsGenOldName (fd : FileDesc) : Option GoString :=
  if fd.Typ = TypeTable then some (fmtInt06 fd.Num ++ ['.', 's', 's', 't'])
  else fsGenName fd

/-- The function fsParseName: the named results `(fd, ok)`. -/
def fsParseName (name : GoString) : FileDesc × Bool :=
  let r1 := Sscanf_d_dot_s name 0 []
  if !r1.err then
    if r1.tail = ['l', 'o', 'g'] then (⟨TypeJournal, r1.Num⟩, true)
    else if r1.tail = ['l', 'd', 'b'] ∨ r1.tail = ['s', 's', 't'] then (⟨TypeTable, r1.Num⟩, true)
    else if r1.tail = ['t', 'm', 'p'] then (⟨TypeTemp, r1.Num⟩, true)
    else (⟨0, r1.Num⟩, false)
  else
    let r2 := Sscanf_MANIFEST_d_s name r1.Num r1.tail
    if r2.n = 1 then (⟨TypeManifest, r2.Num⟩, true)
    else (⟨0, r2.Num⟩, false)

/-! ## Errors -/

deriving instance DecidableEq for Except

/-- An error returned by the archive reader (package saar): either one for which
`errors.Is(err, saar.ErrNotExist)` holds, or any other error. -/
inductive SaarError where
  | ErrNotExist
  | other (code : Nat)
deriving DecidableEq, Repr

/-- The error values `storage.go` returns. `ErrNotExist` is `os.ErrNotExist`,
`ErrCorrupted` is a `*storage.ErrCorrupted` with the message of its `Err`, `saar` is an
error of the archive reader passed on unchanged, `read` is an error of `ioutil.ReadAll`,
and `panicked` stands for the panic of `fsGenName` on an invalid file type. -/
inductive Error where
  | ErrNotExist
  | ErrCorrupted (msg : GoString)
  | errReadOnly
  | saar (e : SaarError)
  | read (code : Nat)
  | panicked
deriving DecidableEq, Repr

/-- The function isCorrupted: the type switch on `*storage.ErrCorrupted`. -/
def isCorrupted : Error → Bool
  | .ErrCorrupted _ => true
  | _ => false

/-- The rewriting `if errors.Is(err, saar.ErrNotExist) { err = os.ErrNotExist }`. -/
def notExistToOs : SaarError → Error
  | .ErrNotExist => .ErrNotExist
  | e => .saar e

/-! ## The archive reader -/

/-- An opened archive entry: what `ioutil.ReadAll` gives on it, the bytes or an error. -/
structure FileReader where
  ReadAll : Except Nat GoString

/-- The archive reader `*saar.Reader`, by its two methods: `Open` by name and `List`
(the `Path` of every header). -/
structure Reader where
  Open : GoString → Except SaarError FileReader
  List : Except SaarError (List GoString)

/-- An archive given by its entries (path and content): every entry is listed and opens,
every other name does not exist. -/
def readerOfEntries (es : List (GoString × GoString)) : Reader where
  Open := fun name =>
    match es.lookup name with
    | some b => .ok ⟨.ok b⟩
    | none => .error .ErrNotExist
  List := .ok (es.map Prod.fst)

/-! ## GetMeta -/

/-- The local type currentFile of GetMeta. -/
structure currentFile where
  name : GoString
  fd : FileDesc
deriving DecidableEq, Repr

/-- The error built for a malformed pointer file. -/
def errCorruptedCurrent : Error :=
  .ErrCorrupted "leveldb/storage: corrupted or incomplete CURRENT file".toList

/-- The closure tryCurrent of GetMeta. The call of `fs.log` is dropped: `log` has an empty
body. -/
def tryCurrent (ar : Reader) (name : GoString) : Except Error currentFile :=
  match ar.Open name with
  | .error e => .error (notExistToOs e)
  | .ok fp =>
    match fp.ReadAll with
    | .error c => .error (.read c)
    | .ok b =>
      if b.length < 1 ∨ b.getLast? ≠ some NL ∨ (fsParseName b.dropLast).2 = false then
        .error errCorruptedCurrent
      else
        let fd := (fsParseName b.dropLast).1
        match fsGenName fd with
        | none => .error .panicked
        | some target =>
          match ar.Open target with
          | .error e => .error (notExistToOs e)
          | .ok _ => .ok ⟨name, fd⟩

/-- The loop of the closure tryCurrents, with the variable lastCerr. -/
def tryCurrentsLoop (ar : Reader) : List GoString → Option Error → Except Error currentFile
  | [], lastCerr =>
    match lastCerr with
    | some e => .error e
    | none => .error .ErrNotExist
  | name :: rest, lastCerr =>
    match tryCurrent ar name with
    | .ok cur => .ok cur
    | .error err =>
      if err = .ErrNotExist then tryCurrentsLoop ar rest lastCerr
      else if isCorrupted err then tryCurrentsLoop ar rest (some err)
      else .error err

/-- The closure tryCurrents of GetMeta. -/
def tryCurrents (ar : Reader) (names : List GoString) : Except Error currentFile :=
  tryCurrentsLoop ar names none

def CURRENT : GoString := "CURRENT".toList

def CURRENT_bak : GoString := "CURRENT.bak".toList

def CURRENT_dot : GoString := "CURRENT.".toList

/-- The suffixes collected from the listing: the loop over hdrs that fills nums. -/
def pendingNums : List GoString → List Int
  | [] => []
  | name :: hdrs =>
    if CURRENT_dot.isPrefixOf name ∧ name ≠ CURRENT_bak then
      match ParseInt (name.drop 8) with
      | .ok i => i :: pendingNums hdrs
      | .error _ => pendingNums hdrs
    else pendingNums hdrs

/-- The call `sort.Sort(sort.Reverse(int64Slice(nums)))`: descending order. -/
def sortReverse (nums : List Int) : List Int :=
  nums.insertionSort (fun a b => b ≤ a)

/-- The name `fmt.Sprintf("CURRENT.%d", num)` of a suffix. -/
def pendName (num : Int) : GoString := CURRENT_dot ++ fmtInt num

/-- The names pendNames: `CURRENT.%d` of the sorted suffixes. -/
def pendNames (nums : List Int) : List GoString :=
  (sortReverse nums).map pendName

/-- The test `err != nil && err != os.ErrNotExist && !isCorrupted(err)` on the result of
tryCurrents. -/
def isFatal : Except Error currentFile → Bool
  | .ok _ => false
  | .error e => decide (e ≠ .ErrNotExist) && !isCorrupted e

/-- The result of the pending phase: `(pendCur, pendErr)`, initially `(nil, os.ErrNotExist)`. -/
def pendingPhase (ar : Reader) (hdrs : List GoString) : Except Error currentFile :=
  if (pendingNums hdrs).length > 0 then tryCurrents ar (pendNames (pendingNums hdrs))
  else .error .ErrNotExist

/-- The method GetMeta, after the listing. The deferred Printf only writes to standard
output. -/
def GetMetaOf (ar : Reader) (hdrs : List GoString) : Except Error FileDesc :=
  match pendingPhase ar hdrs with
  | .error pendErr =>
    if isFatal (.error pendErr) then .error pendErr
    else
      match tryCurrents ar [CURRENT, CURRENT_bak] with
      | .error curErr =>
        if isFatal (.error curErr) then .error curErr
        else if isCorrupted pendErr then .error pendErr
        else .error curErr
      | .ok curCur => .ok curCur.fd
  | .ok pendCur =>
    match tryCurrents ar [CURRENT, CURRENT_bak] with
    | .error curErr =>
      if isFatal (.error curErr) then .error curErr
      else .ok pendCur.fd
    | .ok curCur =>
      if pendCur.fd.Num > curCur.fd.Num then .ok pendCur.fd else .ok curCur.fd

/-- The method GetMeta. -/
def GetMeta (ar : Reader) : Except Error FileDesc :=
  match ar.List with
  | .error e => .error (.saar e)
  | .ok hdrs => GetMetaOf ar hdrs

/-! ## Vocabulary of the statements -/

/-- A probe that fails and lets the loop of tryCurrents go on: not-exist or corrupted. -/
def softFail (ar : Reader) (name : GoString) : Prop :=
  tryCurrent ar name = .error .ErrNotExist ∨ tryCurrent ar name = .error errCorruptedCurrent

instance (ar : Reader) (name : GoString) : Decidable (softFail ar name) := by
  unfold softFail; infer_instance

/-- The test of tryCurrent on the content of a pointer file: empty, no final newline, or
no decodable name before it. -/
def malformed (b : GoString) : Prop :=
  b.length < 1 ∨ b.getLast? ≠ some NL ∨ (fsParseName b.dropLast).2 = false

instance (b : GoString) : Decidable (malformed b) := by
  unfold malformed; infer_instance

/-- Every name GetMeta probes when no probe succeeds: pendNames, CURRENT, CURRENT.bak. -/
def candidates (hdrs : List GoString) : List GoString :=
  pendNames (pendingNums hdrs) ++ [CURRENT, CURRENT_bak]

/-- The four file types fsGenName encodes. -/
def validType (t : FileType) : Prop :=
  t = TypeManifest ∨ t = TypeJournal ∨ t = TypeTable ∨ t = TypeTemp

instance (t : FileType) : Decidable (validType t) := by
  unfold validType; infer_instance

/-! ## Sample archives -/

/-- CURRENT.7 names manifest 7, CURRENT names manifest 5. -/
def arPending7 : Reader := readerOfEntries
  [("CURRENT.7".toList, "MANIFEST-000007\n".toList), ("CURRENT".toList, "MANIFEST-000005\n".toList),
   ("MANIFEST-000007".toList, []), ("MANIFEST-000005".toList, [])]

/-- CURRENT.3 names manifest 3, CURRENT names manifest 5. -/
def arPending3 : Reader := readerOfEntries
  [("CURRENT.3".toList, "MANIFEST-000003\n".toList), ("CURRENT".toList, "MANIFEST-000005\n".toList),
   ("MANIFEST-000003".toList, []), ("MANIFEST-000005".toList, [])]

/-- CURRENT.9 is malformed, CURRENT names manifest 4. -/
def arCorrupt9 : Reader := readerOfEntries
  [("CURRENT.9".toList, "MANIFEST-".toList), ("CURRENT".toList, "MANIFEST-000004\n".toList),
   ("MANIFEST-000004".toList, [])]

/-- CURRENT is malformed and nothing else is in the archive. -/
def arCorruptCurrent : Reader := readerOfEntries [("CURRENT".toList, "garbage".toList)]

/-- CURRENT.2 is malformed, CURRENT names a manifest that is missing. -/
def arDamaged : Reader := readerOfEntries
  [("CURRENT.2".toList, "MANIFEST-000002".toList), ("CURRENT".toList, "MANIFEST-000001\n".toList)]

/-- CURRENT names a table file, and the table file is in the archive. -/
def arTablePointer : Reader := readerOfEntries
  [("CURRENT".toList, "000005.ldb\n".toList), ("000005.ldb".toList, [])]

/-- The first shape fsParseName accepts: optional white space, an optional sign, decimal
digits, a dot, optional white space, one of the four extensions, and then nothing or a
text that starts with a white-space rune. -/
def numericShape (name : GoString) : Prop :=
  ∃ ws sign ds gap ext rest : List Char,
    name = ws ++ sign ++ ds ++ '.' :: (gap ++ ext ++ rest) ∧
    (∀ c ∈ ws, isSpace c = true) ∧
    (sign = [] ∨ sign = ['+'] ∨ sign = ['-']) ∧
    ds ≠ [] ∧ (∀ c ∈ ds, isDecimalDigit c = true) ∧
    (∀ c ∈ gap, isSpace c = true) ∧
    (ext = ['l', 'o', 'g'] ∨ ext = ['l', 'd', 'b'] ∨ ext = ['s', 's', 't'] ∨
      ext = ['t', 'm', 'p']) ∧
    (∀ c, rest.head? = some c → isSpace c = true)

/-- The second shape fsParseName accepts: MANIFEST-, optional white space, an optional
sign, decimal digits, and then nothing or a text that starts with a white-space rune. -/
def manifestShape (name : GoString) : Prop :=
  ∃ ws sign ds rest : List Char,
    name = ['M', 'A', 'N', 'I', 'F', 'E', 'S', 'T', '-'] ++ (ws ++ sign ++ ds ++ rest) ∧
    (∀ c ∈ ws, isSpace c = true) ∧
    (sign = [] ∨ sign = ['+'] ∨ sign = ['-']) ∧
    ds ≠ [] ∧ (∀ c ∈ ds, isDecimalDigit c = true) ∧
    (∀ c, rest.head? = some c → isSpace c = true)

/-- CURRENT.9 is missing its target, CURRENT.7 names manifest 2, CURRENT.3 names
manifest 8. -/
def arThreePending : Reader := readerOfEntries
  [("CURRENT.3".toList, "MANIFEST-000008\n".toList),
   ("CURRENT.9".toList, "MANIFEST-000009\n".toList),
   ("CURRENT.7".toList, "MANIFEST-000002\n".toList),
   ("MANIFEST-000002".toList, []), ("MANIFEST-000008".toList, [])]

/-- The only pointer file is CURRENT.007; it names manifest 7, which is in the archive. -/
def arNonCanonical : Reader := readerOfEntries
  [("CURRENT.007".toList, "MANIFEST-000007\n".toList), ("MANIFEST-000007".toList, [])]

/-- The only pointer file is CURRENT.7; it names manifest 7, which is in the archive. -/
def arCanonical : Reader := readerOfEntries
  [("CURRENT.7".toList, "MANIFEST-000007\n".toList), ("MANIFEST-000007".toList, [])]

/-! ## List, Open and the mutating methods -/

deriving instance DecidableEq for FileReader

/-- The loop of the method List over the headers, with the slice fds it appends to: an
entry is kept when fsParseName decodes it and `fd.Type&ft != 0`. -/
def ListLoop (ft : FileType) : List GoString → List FileDesc → List FileDesc
  | [], fds => fds
  | name :: hdrs, fds =>
    if (fsParseName name).2 = true ∧ Int.land (fsParseName name).1.Typ ft ≠ 0 then
      ListLoop ft hdrs (fds ++ [(fsParseName name).1])
    else ListLoop ft hdrs fds

/-- The test of the loop of List on a decoded entry `(fd, ok)`: `ok && fd.Type&ft != 0`. -/
def keeps (ft : FileType) (r : FileDesc × Bool) : Bool :=
  r.2 && decide (Int.land r.1.Typ ft ≠ 0)

/-- The method List of arStorage (named apart from the type of lists). -/
def ListByType (ar : Reader) (ft : FileType) : Except Error (List FileDesc) :=
  match ar.List with
  | .error e => .error (.saar e)
  | .ok hdrs => .ok (ListLoop ft hdrs [])

/-- The method Open of arStorage: the primary name, then the legacy name when the type has
one and the primary name does not exist. The reader returned is the archive's reader in a
wrapper whose Close does nothing. -/
def Open (ar : Reader) (fd : FileDesc) : Except Error FileReader :=
  match fsGenName fd with
  | none => .error .panicked
  | some name =>
    match ar.Open name with
    | .ok f => .ok f
    | .error err =>
      if fsHasOldName fd = true ∧ err = .ErrNotExist then
        match fsGenOldName fd with
        | none => .error .panicked
        | some old =>
          match ar.Open old with
          | .ok f => .ok f
          | .error err2 => .error (notExistToOs err2)
      else .error (notExistToOs err)

/-- The method SetMeta: the archive after the call and the error returned. -/
def SetMeta (ar : Reader) (_fd : FileDesc) : Reader × Option Error := (ar, some .errReadOnly)

/-- The method Create: the archive after the call and `(nil, errReadOnly)`. -/
def Create (ar : Reader) (_fd : FileDesc) : Reader × Except Error FileReader :=
  (ar, .error .errReadOnly)

/-- The method Remove: the archive after the call and the error returned. -/
def Remove (ar : Reader) (_fd : FileDesc) : Reader × Option Error := (ar, some .errReadOnly)

/-- The method Rename: the archive after the call and the error returned. -/
def Rename (ar : Reader) (_oldfd _newfd : FileDesc) : Reader × Option Error :=
  (ar, some .errReadOnly)

/-- A pointer file that tryCurrent accepts: it opens, reads, holds a decodable name and a
newline, and the file the primary encoding of the decoded descriptor names opens. -/
def validPointer (ar : Reader) (name : GoString) (fd : FileDesc) : Prop :=
  ∃ fp nm target f, ar.Open name = .ok fp ∧ fp.ReadAll = .ok (nm ++ [NL]) ∧
    fsParseName nm = (fd, true) ∧ fsGenName fd = some target ∧ ar.Open target = .ok f

/-- The files of a database that was just written: one journal, the manifest, CURRENT,
and the lock and log files. -/
def arFresh : Reader := readerOfEntries
  [("000001.log".toList, "k1v1".toList), ("CURRENT".toList, "MANIFEST-000000\n".toList),
   ("LOCK".toList, []), ("LOG".toList, "log".toList), ("MANIFEST-000000".toList, "m".toList)]

/-- CURRENT is malformed, CURRENT.bak names manifest 6. -/
def arBakOnly : Reader := readerOfEntries
  [("CURRENT".toList, "MANIFEST-000009".toList), ("CURRENT.bak".toList, "MANIFEST-000006\n".toList),
   ("MANIFEST-000006".toList, [])]

/-- CURRENT names manifest 3, which is not in the archive. -/
def arDangling : Reader := readerOfEntries
  [("CURRENT".toList, "MANIFEST-000003\n".toList), ("000001.log".toList, [])]

/-- No entry starts with CURRENT. -/
def arNoPointer : Reader := readerOfEntries
  [("MANIFEST-000002".toList, []), ("000001.log".toList, []), ("README.txt".toList, [])]

/-- One file of each kind, a legacy table and a foreign file. -/
def arListing : Reader := readerOfEntries
  [("README.txt".toList, []), ("000001.log".toList, []), ("000002.ldb".toList, []),
   ("000003.sst".toList, []), ("MANIFEST-000004".toList, []), ("000005.tmp".toList, [])]

/-- A journal whose name is not padded to six digits. -/
def arShortName : Reader := readerOfEntries [("5.log".toList, "data".toList)]

/-- CURRENT holds a first malformed content. -/
def arMalformedA : Reader := readerOfEntries [("CURRENT".toList, "MANIFEST-000001".toList)]

/-- CURRENT holds a second malformed content. -/
def arMalformedB : Reader := readerOfEntries [("CURRENT".toList, "garbage\n".toList)]

/-- CURRENT names manifest 5, CURRENT.bak names the higher manifest 9. -/
def arBakHigher : Reader := readerOfEntries
  [("CURRENT".toList, "MANIFEST-000005\n".toList), ("CURRENT.bak".toList, "MANIFEST-000009\n".toList),
   ("MANIFEST-000005".toList, []), ("MANIFEST-000009".toList, [])]

/-- The number n written in decimal after k leading zeros. -/
def decimalWithZeros (k n : Nat) : GoString := List.replicate k '0' ++ Nat.toDigits 10 n

/-- CURRENT.7 names manifest 7 and is the only pointer file that opens: opening CURRENT
fails with an error of the archive reader that is not its not-exist error. -/
def arFatalStable : Reader where
  Open := fun name =>
    if name = CURRENT then .error (.other 13)
    else (readerOfEntries
      [("CURRENT.7".toList, "MANIFEST-000007\n".toList), ("MANIFEST-000007".toList, [])]).Open name
  List := .ok ["CURRENT.7".toList, "CURRENT".toList, "MANIFEST-000007".toList]

/-- CURRENT names manifest 4, and opening CURRENT.9 fails with an error of the archive
reader that is not its not-exist error. -/
def arFatalPending : Reader where
  Open := fun name =>
    if name = "CURRENT.9".toList then .error (.other 13)
    else (readerOfEntries
      [("CURRENT".toList, "MANIFEST-000004\n".toList), ("MANIFEST-000004".toList, [])]).Open name
  List := .ok ["CURRENT.9".toList, "CURRENT".toList, "MANIFEST-000004".toList]

/-! ## Decimal rendering and reading -/

/-- The value of a run of decimal digits, most significant first. -/
def digitsValue (ds : List Char) : Nat := ds.foldl (fun a c => a * 10 + digitVal c) 0

theorem digitChar_isDecimalDigit {m : Nat} (hm : m < 10) :
    isDecimalDigit (Nat.digitChar m) = true ∧ digitVal (Nat.digitChar m) = m := by
  interval_cases m <;> exact ⟨by decide, by decide⟩

theorem digitsValue_append_singleton (ds : List Char) (c : Char) :
    digitsValue (ds ++ [c]) = digitsValue ds * 10 + digitVal c := by
  simp [digitsValue, List.foldl_append]

theorem foldl_digits_shift (ds : List Char) (a : Nat) :
    ds.foldl (fun a c => a * 10 + digitVal c) a = a * 10 ^ ds.length + digitsValue ds := by
  induction ds generalizing a with
  | nil => simp [digitsValue]
  | cons c cs ih =>
    simp only [digitsValue, List.foldl_cons, List.length_cons]
    rw [ih (a * 10 + digitVal c), ih (0 * 10 + digitVal c)]
    ring

theorem digitsValue_cons (c : Char) (cs : List Char) :
    digitsValue (c :: cs) = digitVal c * 10 ^ cs.length + digitsValue cs := by
  have := foldl_digits_shift cs (0 * 10 + digitVal c)
  simp only [Nat.zero_mul, Nat.zero_add] at this
  simpa [digitsValue] using this

/-- The characters written in front of a run of digits are digits. -/
theorem toDigitsCore_digits (fuel : Nat) (n : Nat) (acc : List Char)
    (hacc : ∀ c ∈ acc, isDecimalDigit c = true) :
    ∀ c ∈ Nat.toDigitsCore 10 fuel n acc, isDecimalDigit c = true := by
  induction fuel generalizing n acc with
  | zero => simpa [Nat.toDigitsCore] using hacc
  | succ fuel ih =>
    have hd := (digitChar_isDecimalDigit (Nat.mod_lt n (by norm_num : 10 > 0))).1
    have hcons : ∀ c ∈ Nat.digitChar (n % 10) :: acc, isDecimalDigit c = true := by
      intro c hc
      rcases List.mem_cons.mp hc with h | h
      · rw [h]; exact hd
      · exact hacc c h
    unfold Nat.toDigitsCore
    dsimp only
    split
    · exact hcons
    · exact ih (n / 10) _ hcons

/-- With fuel above the number, the value read back is the number, shifted over the
accumulator. -/
theorem toDigitsCore_value (fuel : Nat) (n : Nat) (acc : List Char) (hn : n < fuel) :
    digitsValue (Nat.toDigitsCore 10 fuel n acc) = n * 10 ^ acc.length + digitsValue acc := by
  induction fuel generalizing n acc with
  | zero => omega
  | succ fuel ih =>
    have hd := (digitChar_isDecimalDigit (Nat.mod_lt n (by norm_num : 10 > 0))).2
    unfold Nat.toDigitsCore
    dsimp only
    split
    · rename_i h10
      rw [digitsValue_cons, hd]
      have : n % 10 = n := by omega
      rw [this]
    · rename_i h10
      rw [ih (n / 10) _ (by omega), digitsValue_cons, hd, List.length_cons, pow_succ]
      have hsplit : n * 10 ^ acc.length = (10 * (n / 10) + n % 10) * 10 ^ acc.length := by
        rw [Nat.div_add_mod n 10]
      rw [hsplit]
      ring

theorem toDigitsCore_ne_nil (fuel : Nat) (n : Nat) (acc : List Char)
    (h : 0 < fuel ∨ acc ≠ []) : Nat.toDigitsCore 10 fuel n acc ≠ [] := by
  induction fuel generalizing n acc with
  | zero =>
    rcases h with h | h
    · omega
    · simpa [Nat.toDigitsCore] using h
  | succ fuel ih =>
    unfold Nat.toDigitsCore
    dsimp only
    split
    · simp
    · exact ih _ _ (Or.inr (by simp))

theorem toDigits_decimal (n : Nat) :
    Nat.toDigits 10 n ≠ [] ∧ (∀ c ∈ Nat.toDigits 10 n, isDecimalDigit c = true) ∧
      digitsValue (Nat.toDigits 10 n) = n := by
  refine ⟨toDigitsCore_ne_nil _ _ _ (Or.inl (by omega)),
    toDigitsCore_digits _ _ _ (by simp), ?_⟩
  have := toDigitsCore_value (n + 1) n [] (by omega)
  simpa [Nat.toDigits, digitsValue] using this

theorem digitsValue_replicate_zero (k : Nat) (ds : List Char) :
    digitsValue (List.replicate k '0' ++ ds) = digitsValue ds := by
  induction k with
  | zero => simp
  | succ k ih =>
    have h0 : digitVal '0' = 0 := by decide
    simp only [digitsValue, List.replicate_succ, List.cons_append, List.foldl_cons] at ih ⊢
    simpa [h0] using ih

theorem zeroPad_decimal (w n : Nat) :
    zeroPad w (Nat.toDigits 10 n) ≠ [] ∧
      (∀ c ∈ zeroPad w (Nat.toDigits 10 n), isDecimalDigit c = true) ∧
      digitsValue (zeroPad w (Nat.toDigits 10 n)) = n := by
  obtain ⟨hne, hdig, hval⟩ := toDigits_decimal n
  refine ⟨?_, ?_, ?_⟩
  · simp [zeroPad, hne]
  · intro c hc
    rcases List.mem_append.mp hc with h | h
    · rw [(List.mem_replicate.mp h).2]; decide
    · exact hdig c h
  · simp [zeroPad, digitsValue_replicate_zero, hval]

theorem digitsValue_foldl_ge (ds : List Char) (a : Nat) :
    a ≤ ds.foldl (fun a c => a * 10 + digitVal c) a := by
  induction ds generalizing a with
  | nil => simp
  | cons c cs ih =>
    simp only [List.foldl_cons]
    exact le_trans (by omega) (ih (a * 10 + digitVal c))

theorem ParseUintLoop_digits (ds : List Char) : ∀ a : Nat,
    (∀ c ∈ ds, isDecimalDigit c = true) →
    ds.foldl (fun a c => a * 10 + digitVal c) a ≤ maxUint64 →
    ParseUintLoop ds a = .ok (ds.foldl (fun a c => a * 10 + digitVal c) a) := by
  induction ds with
  | nil => intro a _ _; rfl
  | cons c cs ih =>
    intro a hdig hle
    simp only [List.foldl_cons] at hle ⊢
    have hc : isDecimalDigit c = true := hdig c (List.mem_cons_self _ _)
    have hge := digitsValue_foldl_ge cs (a * 10 + digitVal c)
    have h1 : a * 10 + digitVal c ≤ maxUint64 := le_trans hge hle
    have h2 : ¬ (a ≥ maxUint64 / 10 + 1) := by
      simp only [maxUint64] at h1 ⊢
      omega
    have h3 : ¬ (a * 10 + digitVal c > maxUint64) := by omega
    simp only [ParseUintLoop, hc, Bool.not_true, Bool.false_eq_true, if_false, h2, h3]
    exact ih _ (fun d hd => hdig d (List.mem_cons_of_mem _ hd)) hle

/-- ParseInt reads a non-empty run of digits whose value fits an int64 as that value. -/
theorem ParseInt_digits (ds : List Char) (hne : ds ≠ [])
    (hdig : ∀ c ∈ ds, isDecimalDigit c = true) (hlt : digitsValue ds < 2 ^ 63) :
    ParseInt ds = .ok (digitsValue ds : Int) := by
  cases ds with
  | nil => exact absurd rfl hne
  | cons c cs =>
    have hc : isDecimalDigit c = true := hdig c (List.mem_cons_self _ _)
    have hplus : c ≠ '+' := by intro h; rw [h] at hc; revert hc; decide
    have hminus : c ≠ '-' := by intro h; rw [h] at hc; revert hc; decide
    have hloop := ParseUintLoop_digits (c :: cs) 0 hdig (by
      have : digitsValue (c :: cs) < 2 ^ 63 := hlt
      simp only [digitsValue] at this
      simp only [maxUint64]
      omega)
    have hnot : ¬ (digitsValue (c :: cs) ≥ 2 ^ 63) := by omega
    simp only [ParseInt, hplus, hminus, or_self, if_false, ParseUint, List.cons_ne_nil,
      decide_False, Bool.not_false, Bool.true_and, Bool.false_and, Bool.false_eq_true]
    rw [hloop]
    change (if decide (digitsValue (c :: cs) ≥ 2 ^ 63) = true then Except.error NumError.ErrRange
      else if False then Except.error NumError.ErrRange
      else Except.ok (if False then - (digitsValue (c :: cs) : Int) else (digitsValue (c :: cs) : Int)))
      = Except.ok (digitsValue (c :: cs) : Int)
    generalize digitsValue (c :: cs) = v at hnot
    have hv : v < 9223372036854775808 := by omega
    simp [hv]

theorem isDecimalDigit_not_space {c : Char} (h : isDecimalDigit c = true) :
    isSpace c = false ∧ c ≠ CR ∧ c ≠ NL ∧ c ≠ '+' ∧ c ≠ '-' ∧ c ≠ '.' := by
  have h48 : 48 ≤ c.toNat := by
    have : '0' ≤ c := by simp [isDecimalDigit] at h; exact h.1
    exact this
  have h57 : c.toNat ≤ 57 := by
    have : c ≤ '9' := by simp [isDecimalDigit] at h; exact h.2
    exact this
  refine ⟨?_, ?_, ?_, ?_, ?_, ?_⟩
  · simp only [isSpace, Bool.or_eq_false_iff, Bool.and_eq_false_iff, decide_eq_false_iff_not]
    omega
  all_goals
    intro hc
    rw [hc] at h48 h57
    revert h48 h57
    decide

theorem SkipSpace_digit {c : Char} (cs : List Char) (h : isDecimalDigit c = true) :
    SkipSpace (c :: cs) = some (c :: cs) := by
  obtain ⟨hs, hcr, hnl, -, -, -⟩ := isDecimalDigit_not_space h
  simp [SkipSpace, hs, hcr, hnl]

theorem takeWhile_digits_append (ds rest : List Char)
    (hdig : ∀ c ∈ ds, isDecimalDigit c = true) (hrest : rest.head?.all (fun c => !isDecimalDigit c)) :
    (ds ++ rest).takeWhile isDecimalDigit = ds ∧ (ds ++ rest).dropWhile isDecimalDigit = rest := by
  induction ds with
  | nil =>
    cases rest with
    | nil => simp
    | cons r rs =>
      have hr : isDecimalDigit r = false := by simpa using hrest
      simp [List.takeWhile, List.dropWhile, hr]
  | cons c cs ih =>
    have hc : isDecimalDigit c = true := hdig c (List.mem_cons_self _ _)
    have := ih (fun d hd => hdig d (List.mem_cons_of_mem _ hd))
    simp [List.takeWhile, List.dropWhile, hc, this.1, this.2]

/-- The verb %d reads a non-empty digit run that is followed by no digit. -/
theorem scanInt_digits (ds rest : List Char) (hne : ds ≠ [])
    (hdig : ∀ c ∈ ds, isDecimalDigit c = true) (hlt : digitsValue ds < 2 ^ 63)
    (hrest : rest.head?.all (fun c => !isDecimalDigit c)) :
    scanInt (ds ++ rest) = some ((digitsValue ds : Int), rest) := by
  obtain ⟨htake, hdrop⟩ := takeWhile_digits_append ds rest hdig hrest
  cases ds with
  | nil => exact absurd rfl hne
  | cons c cs =>
    have hc : isDecimalDigit c = true := hdig c (List.mem_cons_self _ _)
    obtain ⟨-, -, -, hplus, hminus, -⟩ := isDecimalDigit_not_space hc
    have hskip : SkipSpace (c :: (cs ++ rest)) = some (c :: (cs ++ rest)) := SkipSpace_digit _ hc
    have hparse := ParseInt_digits (c :: cs) hne hdig hlt
    simp only [List.cons_append] at htake hdrop ⊢
    simp only [scanInt, hskip, hplus, hminus, or_self, if_false, scanNumber, htake, hdrop,
      List.cons_ne_nil, List.nil_append, hparse]

/-- The rendering `%06d` of a non-negative int64 is a digit run that reads back. -/
theorem fmtInt06_decimal (n : Int) (h0 : 0 ≤ n) :
    fmtInt06 n ≠ [] ∧ (∀ c ∈ fmtInt06 n, isDecimalDigit c = true) ∧
      (digitsValue (fmtInt06 n) : Int) = n := by
  have hn : ¬ n < 0 := by omega
  obtain ⟨hne, hdig, hval⟩ := zeroPad_decimal 6 n.toNat
  simp only [fmtInt06, hn, if_false]
  refine ⟨hne, hdig, ?_⟩
  rw [hval]
  omega

/-- The first format on `<%06d>.<ext>`: both operands are stored. -/
theorem Sscanf_d_dot_s_numbered (n : Int) (h0 : 0 ≤ n) (h63 : n < 2 ^ 63) (ext : List Char)
    (hskip : SkipSpace ext = some ext) (hword : convertString ext = some (ext, [])) :
    Sscanf_d_dot_s (fmtInt06 n ++ '.' :: ext) 0 [] = ⟨2, false, n, ext⟩ := by
  obtain ⟨hne, hdig, hval⟩ := fmtInt06_decimal n h0
  have hlt : digitsValue (fmtInt06 n) < 2 ^ 63 := by
    have : (digitsValue (fmtInt06 n) : Int) < 2 ^ 63 := by rw [hval]; exact h63
    exact_mod_cast this
  have hscan := scanInt_digits (fmtInt06 n) ('.' :: ext) hne hdig hlt (by simp; decide)
  have hsk : SkipSpace (fmtInt06 n ++ '.' :: ext) = some (fmtInt06 n ++ '.' :: ext) := by
    cases hds : fmtInt06 n with
    | nil => exact absurd hds hne
    | cons c cs =>
      have hc : isDecimalDigit c = true := hdig c (by rw [hds]; exact List.mem_cons_self _ _)
      simpa using SkipSpace_digit (cs ++ '.' :: ext) hc
  simp only [Sscanf_d_dot_s, hsk, hscan, hval, ne_eq, not_true_eq_false, if_false, hskip, hword]

/-- The first format on a name that starts with `M`: nothing is stored. -/
theorem Sscanf_d_dot_s_M (rest : List Char) :
    Sscanf_d_dot_s ('M' :: rest) 0 [] = ⟨0, true, 0, []⟩ := by
  have hM : SkipSpace ('M' :: rest) = some ('M' :: rest) := by
    have h1 : ¬ ('M' = CR) := by decide
    have h2 : ¬ ('M' = NL) := by decide
    have h3 : isSpace 'M' = false := by decide
    simp [SkipSpace, h1, h2, h3]
  have hnum : scanNumber ('M' :: rest) = none := by
    have : isDecimalDigit 'M' = false := by decide
    simp [scanNumber, List.takeWhile, this]
  have hp : ¬ ('M' = '+' ∨ 'M' = '-') := by decide
  simp only [Sscanf_d_dot_s, hM, scanInt, hp, if_false, hnum]

/-- The second format on `MANIFEST-<%06d>`: the number is stored and the word is missing. -/
theorem Sscanf_MANIFEST_d_s_numbered (n : Int) (h0 : 0 ≤ n) (h63 : n < 2 ^ 63) :
    Sscanf_MANIFEST_d_s (['M', 'A', 'N', 'I', 'F', 'E', 'S', 'T', '-'] ++ fmtInt06 n) 0 []
      = ⟨1, true, n, []⟩ := by
  obtain ⟨hne, hdig, hval⟩ := fmtInt06_decimal n h0
  have hlt : digitsValue (fmtInt06 n) < 2 ^ 63 := by
    have : (digitsValue (fmtInt06 n) : Int) < 2 ^ 63 := by rw [hval]; exact h63
    exact_mod_cast this
  have hscan := scanInt_digits (fmtInt06 n) [] hne hdig hlt (by decide)
  rw [List.append_nil] at hscan
  have hsk : SkipSpace (fmtInt06 n) = some (fmtInt06 n) := by
    cases hds : fmtInt06 n with
    | nil => exact absurd hds hne
    | cons c cs =>
      exact SkipSpace_digit cs (hdig c (by rw [hds]; exact List.mem_cons_self _ _))
  have hlit : matchLiteral ['M', 'A', 'N', 'I', 'F', 'E', 'S', 'T', '-']
      (['M', 'A', 'N', 'I', 'F', 'E', 'S', 'T', '-'] ++ fmtInt06 n) = some (fmtInt06 n) := by
    simp [matchLiteral]
  have hnil : SkipSpace [] = some [] := rfl
  have hconv : convertString [] = none := rfl
  simp only [Sscanf_MANIFEST_d_s, hlit, hsk, hscan, hval, hnil, hconv]

/-- C1: round trip of the name codec. For every descriptor whose type is Manifest, Journal,
Table or Temp and whose number is a non-negative int64, fsGenName returns a name and
fsParseName maps that name back to the descriptor with ok = true. -/
theorem fsParseName_fsGenName (fd : FileDesc)
    (hT : fd.Typ = TypeManifest ∨ fd.Typ = TypeJournal ∨ fd.Typ = TypeTable ∨ fd.Typ = TypeTemp)
    (h0 : 0 ≤ fd.Num) (h63 : fd.Num < 2 ^ 63) :
    ∃ name, fsGenName fd = some name ∧ fsParseName name = (fd, true) := by
  obtain ⟨t, n⟩ := fd
  simp only at hT h0 h63
  rcases hT with h | h | h | h <;> subst h
  · refine ⟨['M', 'A', 'N', 'I', 'F', 'E', 'S', 'T', '-'] ++ fmtInt06 n, by simp [fsGenName], ?_⟩
    have h1 := Sscanf_d_dot_s_M (['A', 'N', 'I', 'F', 'E', 'S', 'T', '-'] ++ fmtInt06 n)
    have h2 := Sscanf_MANIFEST_d_s_numbered n h0 h63
    simp only [List.cons_append, List.nil_append] at h1 h2
    simp only [fsParseName, List.cons_append, List.nil_append, h1, h2]
    rfl
  · refine ⟨fmtInt06 n ++ ['.', 'l', 'o', 'g'], by simp [fsGenName, TypeJournal, TypeManifest], ?_⟩
    have h1 := Sscanf_d_dot_s_numbered n h0 h63 ['l', 'o', 'g'] (by decide) (by decide)
    simp only [fsParseName, h1]
    rfl
  · refine ⟨fmtInt06 n ++ ['.', 'l', 'd', 'b'],
      by simp [fsGenName, TypeJournal, TypeManifest, TypeTable], ?_⟩
    have h1 := Sscanf_d_dot_s_numbered n h0 h63 ['l', 'd', 'b'] (by decide) (by decide)
    simp only [fsParseName, h1]
    rfl
  · refine ⟨fmtInt06 n ++ ['.', 't', 'm', 'p'],
      by simp [fsGenName, TypeJournal, TypeManifest, TypeTable, TypeTemp], ?_⟩
    have h1 := Sscanf_d_dot_s_numbered n h0 h63 ['t', 'm', 'p'] (by decide) (by decide)
    simp only [fsParseName, h1]
    rfl

theorem fsParseName_fsGenName_witness :
    ∃ name, fsGenName ⟨TypeTable, 5⟩ = some name ∧ fsParseName name = (⟨TypeTable, 5⟩, true) :=
  fsParseName_fsGenName ⟨TypeTable, 5⟩ (by decide) (by decide) (by decide)

/-- C2: legacy equivalence. For every Table descriptor with a non-negative int64 number,
the legacy name `NNNNNN.sst` and the primary name `NNNNNN.ldb` both exist and both decode
to the descriptor with ok = true. -/
theorem fsParseName_fsGenOldName (fd : FileDesc) (hT : fd.Typ = TypeTable)
    (h0 : 0 ≤ fd.Num) (h63 : fd.Num < 2 ^ 63) :
    (∃ old, fsGenOldName fd = some old ∧ old = fmtInt06 fd.Num ++ ['.', 's', 's', 't'] ∧
        fsParseName old = (fd, true)) ∧
      (∃ name, fsGenName fd = some name ∧ name = fmtInt06 fd.Num ++ ['.', 'l', 'd', 'b'] ∧
        fsParseName name = (fd, true)) := by
  obtain ⟨t, n⟩ := fd
  simp only at hT h0 h63
  subst hT
  constructor
  · refine ⟨fmtInt06 n ++ ['.', 's', 's', 't'], by simp [fsGenOldName], rfl, ?_⟩
    have h1 := Sscanf_d_dot_s_numbered n h0 h63 ['s', 's', 't'] (by decide) (by decide)
    simp only [fsParseName, h1]
    rfl
  · refine ⟨fmtInt06 n ++ ['.', 'l', 'd', 'b'],
      by simp [fsGenName, TypeJournal, TypeManifest, TypeTable], rfl, ?_⟩
    have h1 := Sscanf_d_dot_s_numbered n h0 h63 ['l', 'd', 'b'] (by decide) (by decide)
    simp only [fsParseName, h1]
    rfl

theorem fsParseName_fsGenOldName_witness :
    (∃ old, fsGenOldName ⟨TypeTable, 12⟩ = some old ∧
        old = fmtInt06 12 ++ ['.', 's', 's', 't'] ∧
        fsParseName old = (⟨TypeTable, 12⟩, true)) ∧
      (∃ name, fsGenName ⟨TypeTable, 12⟩ = some name ∧
        name = fmtInt06 12 ++ ['.', 'l', 'd', 'b'] ∧
        fsParseName name = (⟨TypeTable, 12⟩, true)) :=
  fsParseName_fsGenOldName ⟨TypeTable, 12⟩ rfl (by decide) (by decide)

/-! ## The probe and the loop over candidates -/

theorem isCorrupted_errCorruptedCurrent : isCorrupted errCorruptedCurrent = true := rfl

theorem errCorruptedCurrent_ne_notExist : errCorruptedCurrent ≠ Error.ErrNotExist := by
  intro h; cases h

theorem notExistToOs_not_corrupted (e : SaarError) : isCorrupted (notExistToOs e) = false := by
  cases e <;> rfl

/-- The only corrupted error a probe returns is the one built for a malformed content. -/
theorem tryCurrent_corrupted_eq (ar : Reader) (name : GoString) (e : Error)
    (h : tryCurrent ar name = .error e) (hc : isCorrupted e = true) :
    e = errCorruptedCurrent := by
  unfold tryCurrent at h
  split at h
  · injection h with h; subst h
    rw [notExistToOs_not_corrupted] at hc; cases hc
  · split at h
    · injection h with h; subst h; cases hc
    · split at h
      · injection h with h; exact h.symm
      · dsimp only at h
        split at h
        · injection h with h; subst h; cases hc
        · split at h
          · injection h with h; subst h
            rw [notExistToOs_not_corrupted] at hc; cases hc
          · cases h

/-- A probe ends in corrupted exactly when the pointer file opens, reads and has a
malformed content. -/
theorem tryCurrent_corrupted_iff (ar : Reader) (name : GoString) :
    tryCurrent ar name = .error errCorruptedCurrent ↔
      ∃ fp b, ar.Open name = .ok fp ∧ fp.ReadAll = .ok b ∧ malformed b := by
  constructor
  · intro h
    unfold tryCurrent at h
    split at h
    · rename_i e _
      injection h with h
      have := notExistToOs_not_corrupted e
      rw [h] at this; cases this
    · rename_i fp hfp
      split at h
      · injection h with h; cases h
      · rename_i b hb
        split at h
        · rename_i hm
          exact ⟨fp, b, hfp, hb, hm⟩
        · dsimp only at h
          split at h
          · injection h with h; cases h
          · split at h
            · rename_i e _
              injection h with h
              have := notExistToOs_not_corrupted e
              rw [h] at this; cases this
            · cases h
  · rintro ⟨fp, b, hfp, hb, hm⟩
    unfold malformed at hm
    simp only [tryCurrent, hfp, hb, hm, if_true]

/-- A probe succeeds on a pointer file whose content is a decodable name and a newline,
when the file of the decoded descriptor opens. -/
theorem tryCurrent_valid (ar : Reader) (name nm target : GoString) (fp f : FileReader)
    (fd : FileDesc) (hopen : ar.Open name = .ok fp) (hread : fp.ReadAll = .ok (nm ++ [NL]))
    (hdec : fsParseName nm = (fd, true)) (hgen : fsGenName fd = some target)
    (htarget : ar.Open target = .ok f) :
    tryCurrent ar name = .ok ⟨name, fd⟩ := by
  have h1 : ¬ ((nm ++ [NL]).length < 1) := by simp
  have h2 : ¬ ((nm ++ [NL]).getLast? ≠ some NL) := by simp
  have h3 : (nm ++ [NL]).dropLast = nm := by simp
  simp only [tryCurrent, hopen, hread, h1, h2, h3, hdec, false_or, Bool.true_eq_false,
    if_false, hgen, htarget]

theorem tryCurrentsLoop_first_ok (ar : Reader) (pre : List GoString) (x : GoString)
    (post : List GoString) (c : currentFile) (last : Option Error)
    (hpre : ∀ y ∈ pre, softFail ar y) (hx : tryCurrent ar x = .ok c) :
    tryCurrentsLoop ar (pre ++ x :: post) last = .ok c := by
  induction pre generalizing last with
  | nil => simp [tryCurrentsLoop, hx]
  | cons y ys ih =>
    have hy := hpre y (List.mem_cons_self _ _)
    have hys : ∀ z ∈ ys, softFail ar z := fun z hz => hpre z (List.mem_cons_of_mem _ hz)
    rcases hy with hy | hy
    · simp [tryCurrentsLoop, hy, ih _ hys]
    · simp [tryCurrentsLoop, hy, errCorruptedCurrent_ne_notExist,
        isCorrupted_errCorruptedCurrent, ih _ hys]

theorem tryCurrentsLoop_last_corrupted (ar : Reader) (names : List GoString)
    (hall : ∀ y ∈ names, softFail ar y) :
    tryCurrentsLoop ar names (some errCorruptedCurrent) = .error errCorruptedCurrent := by
  induction names with
  | nil => rfl
  | cons y ys ih =>
    have hys : ∀ z ∈ ys, softFail ar z := fun z hz => hall z (List.mem_cons_of_mem _ hz)
    rcases hall y (List.mem_cons_self _ _) with hy | hy
    · simp [tryCurrentsLoop, hy, ih hys]
    · simp [tryCurrentsLoop, hy, errCorruptedCurrent_ne_notExist,
        isCorrupted_errCorruptedCurrent, ih hys]

theorem tryCurrentsLoop_some_corrupted (ar : Reader) (names : List GoString)
    (last : Option Error) (hall : ∀ y ∈ names, softFail ar y)
    (hex : ∃ y ∈ names, tryCurrent ar y = .error errCorruptedCurrent) :
    tryCurrentsLoop ar names last = .error errCorruptedCurrent := by
  induction names generalizing last with
  | nil => obtain ⟨y, hy, _⟩ := hex; cases hy
  | cons y ys ih =>
    have hys : ∀ z ∈ ys, softFail ar z := fun z hz => hall z (List.mem_cons_of_mem _ hz)
    by_cases hy : tryCurrent ar y = .error errCorruptedCurrent
    · simp [tryCurrentsLoop, hy, errCorruptedCurrent_ne_notExist,
        isCorrupted_errCorruptedCurrent, tryCurrentsLoop_last_corrupted ar ys hys]
    · have hy2 : tryCurrent ar y = .error .ErrNotExist := by
        rcases hall y (List.mem_cons_self _ _) with h | h
        · exact h
        · exact absurd h hy
      obtain ⟨z, hz, hzc⟩ := hex
      have hz2 : z ∈ ys := by
        rcases List.mem_cons.mp hz with h | h
        · subst h; exact absurd hzc hy
        · exact h
      simp [tryCurrentsLoop, hy2, ih last hys ⟨z, hz2, hzc⟩]

theorem tryCurrentsLoop_all_notExist (ar : Reader) (names : List GoString)
    (hall : ∀ y ∈ names, tryCurrent ar y = .error .ErrNotExist) :
    tryCurrentsLoop ar names none = .error .ErrNotExist := by
  induction names with
  | nil => rfl
  | cons y ys ih =>
    simp [tryCurrentsLoop, hall y (List.mem_cons_self _ _),
      ih (fun z hz => hall z (List.mem_cons_of_mem _ hz))]

/-- When every candidate fails softly, tryCurrents ends in one of the two soft errors. -/
theorem tryCurrents_soft (ar : Reader) (names : List GoString)
    (hall : ∀ y ∈ names, softFail ar y) :
    tryCurrents ar names = .error .ErrNotExist ∨
      tryCurrents ar names = .error errCorruptedCurrent := by
  by_cases hex : ∃ y ∈ names, tryCurrent ar y = .error errCorruptedCurrent
  · exact Or.inr (tryCurrentsLoop_some_corrupted ar names none hall hex)
  · left
    apply tryCurrentsLoop_all_notExist
    intro y hy
    rcases hall y hy with h | h
    · exact h
    · exact absurd ⟨y, hy, h⟩ hex

/-- The pending phase under soft failures only. -/
theorem pendingPhase_soft (ar : Reader) (hdrs : List GoString)
    (hall : ∀ y ∈ pendNames (pendingNums hdrs), softFail ar y) :
    pendingPhase ar hdrs = .error .ErrNotExist ∨
      pendingPhase ar hdrs = .error errCorruptedCurrent := by
  unfold pendingPhase
  split
  · exact tryCurrents_soft ar _ hall
  · exact Or.inl rfl

/-- A decoded name has one of the four file types. -/
theorem fsParseName_validType (name : GoString) (fd : FileDesc)
    (h : fsParseName name = (fd, true)) : validType fd.Typ := by
  unfold fsParseName at h
  simp only at h
  split at h
  · split at h
    · injection h with h _; subst h; exact Or.inr (Or.inl rfl)
    · split at h
      · injection h with h _; subst h; exact Or.inr (Or.inr (Or.inl rfl))
      · split at h
        · injection h with h _; subst h; exact Or.inr (Or.inr (Or.inr rfl))
        · injection h with _ h; cases h
  · split at h
    · injection h with h _; subst h; exact Or.inl rfl
    · injection h with _ h; cases h

theorem fsGenName_validType (fd : FileDesc) (h : validType fd.Typ) :
    ∃ name, fsGenName fd = some name := by
  unfold fsGenName
  rcases h with h | h | h | h <;> rw [h] <;> simp [TypeManifest, TypeJournal, TypeTable, TypeTemp]

theorem tryCurrents_no_corrupted (ar : Reader) (names : List GoString)
    (hall : ∀ y ∈ names, softFail ar y)
    (hno : ¬ ∃ y ∈ names, tryCurrent ar y = .error errCorruptedCurrent) :
    tryCurrents ar names = .error .ErrNotExist := by
  apply tryCurrentsLoop_all_notExist
  intro y hy
  rcases hall y hy with h | h
  · exact h
  · exact absurd ⟨y, hy, h⟩ hno

theorem pendingPhase_some_corrupted (ar : Reader) (hdrs : List GoString)
    (hall : ∀ y ∈ pendNames (pendingNums hdrs), softFail ar y)
    (hex : ∃ y ∈ pendNames (pendingNums hdrs), tryCurrent ar y = .error errCorruptedCurrent) :
    pendingPhase ar hdrs = .error errCorruptedCurrent := by
  unfold pendingPhase
  split
  · exact tryCurrentsLoop_some_corrupted ar _ none hall hex
  · rename_i hlen
    have hnil : pendingNums hdrs = [] := by
      cases hn : pendingNums hdrs with
      | nil => rfl
      | cons a l => rw [hn] at hlen; simp at hlen
    obtain ⟨y, hy, _⟩ := hex
    rw [hnil] at hy
    simp [pendNames, sortReverse] at hy

theorem pendingPhase_no_corrupted (ar : Reader) (hdrs : List GoString)
    (hall : ∀ y ∈ pendNames (pendingNums hdrs), softFail ar y)
    (hno : ¬ ∃ y ∈ pendNames (pendingNums hdrs), tryCurrent ar y = .error errCorruptedCurrent) :
    pendingPhase ar hdrs = .error .ErrNotExist := by
  unfold pendingPhase
  split
  · exact tryCurrents_no_corrupted ar _ hall hno
  · rfl

/-- GetMeta when only the stable pair yields a descriptor. -/
theorem GetMeta_stable_only (ar : Reader) (hdrs : List GoString) (s : currentFile)
    (hl : ar.List = .ok hdrs)
    (hpend : pendingPhase ar hdrs = .error .ErrNotExist ∨
      pendingPhase ar hdrs = .error errCorruptedCurrent)
    (hs : tryCurrents ar [CURRENT, CURRENT_bak] = .ok s) :
    GetMeta ar = .ok s.fd := by
  rcases hpend with hp | hp <;>
    simp [GetMeta, hl, GetMetaOf, hp, hs, isFatal, errCorruptedCurrent_ne_notExist,
      isCorrupted_errCorruptedCurrent]

/-- GetMeta when every candidate fails softly: corrupted as soon as one probe ended in
corrupted, not-exist otherwise. -/
theorem GetMeta_all_soft (ar : Reader) (hdrs : List GoString) (hl : ar.List = .ok hdrs)
    (hall : ∀ y ∈ candidates hdrs, softFail ar y) :
    ((∃ y ∈ candidates hdrs, tryCurrent ar y = .error errCorruptedCurrent) →
      GetMeta ar = .error errCorruptedCurrent) ∧
    ((¬ ∃ y ∈ candidates hdrs, tryCurrent ar y = .error errCorruptedCurrent) →
      GetMeta ar = .error .ErrNotExist) := by
  have hallP : ∀ y ∈ pendNames (pendingNums hdrs), softFail ar y :=
    fun y hy => hall y (List.mem_append_left _ hy)
  have hallS : ∀ y ∈ [CURRENT, CURRENT_bak], softFail ar y :=
    fun y hy => hall y (List.mem_append_right _ hy)
  constructor
  · rintro ⟨y, hy, hyc⟩
    rcases List.mem_append.mp hy with hyP | hyS
    · have hp := pendingPhase_some_corrupted ar hdrs hallP ⟨y, hyP, hyc⟩
      rcases tryCurrents_soft ar _ hallS with hs | hs <;>
        simp [GetMeta, hl, GetMetaOf, hp, hs, isFatal, errCorruptedCurrent_ne_notExist,
          isCorrupted_errCorruptedCurrent]
    · have hs : tryCurrents ar [CURRENT, CURRENT_bak] = .error errCorruptedCurrent :=
        tryCurrentsLoop_some_corrupted ar _ none hallS ⟨y, hyS, hyc⟩
      rcases pendingPhase_soft ar hdrs hallP with hp | hp <;>
        simp [GetMeta, hl, GetMetaOf, hp, hs, isFatal, errCorruptedCurrent_ne_notExist,
          isCorrupted_errCorruptedCurrent, isCorrupted]
  · intro hno
    have hp := pendingPhase_no_corrupted ar hdrs hallP
      (fun ⟨y, hy, hyc⟩ => hno ⟨y, List.mem_append_left _ hy, hyc⟩)
    have hs := tryCurrents_no_corrupted ar _ hallS
      (fun ⟨y, hy, hyc⟩ => hno ⟨y, List.mem_append_right _ hy, hyc⟩)
    simp [GetMeta, hl, GetMetaOf, hp, hs, isFatal, isCorrupted]

/-- What a successful probe tells: the pointer file opens, reads, ends in a newline, and
the name before the newline decodes to the descriptor returned. -/
theorem tryCurrent_ok_inv (ar : Reader) (name : GoString) (c : currentFile)
    (h : tryCurrent ar name = .ok c) :
    c.name = name ∧ ∃ fp nm target f, ar.Open name = .ok fp ∧ fp.ReadAll = .ok (nm ++ [NL]) ∧
      fsParseName nm = (c.fd, true) ∧ fsGenName c.fd = some target ∧
      ar.Open target = .ok f := by
  unfold tryCurrent at h
  split at h
  · cases h
  · rename_i fp hfp
    split at h
    · cases h
    · rename_i b hb
      split at h
      · cases h
      · rename_i hm
        dsimp only at h
        split at h
        · cases h
        · rename_i target hgen
          split at h
          · cases h
          · rename_i f hf
            injection h with h
            subst h
            simp only [not_or, not_lt, ne_eq, not_not, Bool.not_eq_false] at hm
            obtain ⟨_, hlast, hok⟩ := hm
            have hb2 : b.dropLast ++ [NL] = b := List.dropLast_append_getLast? NL (by simp [hlast])
            refine ⟨rfl, fp, b.dropLast, target, f, hfp, ?_, ?_, hgen, hf⟩
            · rw [hb2]; exact hb
            · exact Prod.ext rfl hok

/-- The loop returns the first probe that succeeds, after soft failures only. -/
theorem tryCurrentsLoop_ok_inv (ar : Reader) (names : List GoString) (last : Option Error)
    (c : currentFile) (h : tryCurrentsLoop ar names last = .ok c) :
    ∃ pre x post, names = pre ++ x :: post ∧ tryCurrent ar x = .ok c ∧
      ∀ y ∈ pre, softFail ar y := by
  induction names generalizing last with
  | nil =>
    unfold tryCurrentsLoop at h
    split at h <;> cases h
  | cons y ys ih =>
    unfold tryCurrentsLoop at h
    split at h
    · rename_i cur hcur
      injection h with h
      subst h
      exact ⟨[], y, ys, rfl, hcur, by simp⟩
    · rename_i err herr
      split at h
      · rename_i hne
        subst hne
        obtain ⟨pre, x, post, hnames, hx, hpre⟩ := ih _ h
        refine ⟨y :: pre, x, post, by rw [hnames]; rfl, hx, ?_⟩
        intro z hz
        rcases List.mem_cons.mp hz with hz | hz
        · subst hz; exact Or.inl herr
        · exact hpre z hz
      · split at h
        · rename_i hcorr
          have he := tryCurrent_corrupted_eq ar y err herr hcorr
          subst he
          obtain ⟨pre, x, post, hnames, hx, hpre⟩ := ih _ h
          refine ⟨y :: pre, x, post, by rw [hnames]; rfl, hx, ?_⟩
          intro z hz
          rcases List.mem_cons.mp hz with hz | hz
          · subst hz; exact Or.inr herr
          · exact hpre z hz
        · cases h

theorem pendingPhase_ok_inv (ar : Reader) (hdrs : List GoString) (c : currentFile)
    (h : pendingPhase ar hdrs = .ok c) :
    tryCurrents ar (pendNames (pendingNums hdrs)) = .ok c := by
  unfold pendingPhase at h
  split at h
  · exact h
  · cases h

/-- A descriptor returned by GetMeta is the result of one of the two groups. -/
theorem GetMeta_ok_inv (ar : Reader) (fd : FileDesc) (h : GetMeta ar = .ok fd) :
    ∃ hdrs, ar.List = .ok hdrs ∧ ∃ c : currentFile, c.fd = fd ∧
      (pendingPhase ar hdrs = .ok c ∨ tryCurrents ar [CURRENT, CURRENT_bak] = .ok c) := by
  unfold GetMeta at h
  split at h
  · cases h
  · rename_i hdrs hl
    refine ⟨hdrs, hl, ?_⟩
    unfold GetMetaOf at h
    split at h
    · rename_i pendErr hp
      split at h
      · cases h
      · split at h
        · split at h
          · cases h
          · split at h <;> cases h
        · rename_i curCur hs
          injection h with h
          exact ⟨curCur, h, Or.inr hs⟩
    · rename_i pendCur hp
      split at h
      · split at h
        · cases h
        · injection h with h
          exact ⟨pendCur, h, Or.inl hp⟩
      · rename_i curCur hs
        split at h
        · injection h with h
          exact ⟨pendCur, h, Or.inl hp⟩
        · injection h with h
          exact ⟨curCur, h, Or.inr hs⟩

/-- A decoded name that starts with `M` is a manifest name. -/
theorem fsParseName_M (rest : List Char) (fd : FileDesc)
    (h : fsParseName ('M' :: rest) = (fd, true)) : fd.Typ = TypeManifest := by
  unfold fsParseName at h
  simp only [Sscanf_d_dot_s_M] at h
  simp only [Bool.not_true, Bool.false_eq_true, if_false] at h
  split at h
  · injection h with h _; subst h; rfl
  · injection h with _ h; cases h

/-! ## GetMeta: the combination of the two groups -/

/-- C3, as stated, fails: CURRENT.7 is a valid pointer to manifest 7 and the stable pair
does not succeed, opening CURRENT failing on an error that is neither not-exist nor
corrupted; exactly one group succeeds, and GetMeta returns that error and not the
descriptor of the pending group. -/
theorem GetMeta_fatal_stable_counterexample :
    arFatalStable.List = .ok ["CURRENT.7".toList, "CURRENT".toList, "MANIFEST-000007".toList] ∧
    pendingPhase arFatalStable
      ["CURRENT.7".toList, "CURRENT".toList, "MANIFEST-000007".toList]
      = .ok ⟨"CURRENT.7".toList, ⟨TypeManifest, 7⟩⟩ ∧
    tryCurrents arFatalStable [CURRENT, CURRENT_bak] = .error (.saar (.other 13)) ∧
    GetMeta arFatalStable = .error (.saar (.other 13)) ∧
    GetMeta arFatalStable ≠ .ok ⟨TypeManifest, 7⟩ := by
  refine ⟨rfl, by decide, by decide, by decide, by decide⟩

/-- C3, amended: precedence in GetMeta. With the listing read: when the pending group
succeeds with p and the stable pair succeeds with s, the result is p's descriptor if
p.Num > s.Num and s's descriptor otherwise (equal numbers included); when only the pending
group succeeds and the stable pair ended in not-exist or corrupted the result is p's
descriptor; when only the stable pair succeeds and the pending group ended in not-exist
or corrupted the result is s's descriptor; and a group that ended in any other error
makes GetMeta return that error, the pending group first. -/
theorem GetMeta_precedence (ar : Reader) (hdrs : List GoString) (hl : ar.List = .ok hdrs) :
    (∀ p s, pendingPhase ar hdrs = .ok p → tryCurrents ar [CURRENT, CURRENT_bak] = .ok s →
      GetMeta ar = .ok (if p.fd.Num > s.fd.Num then p.fd else s.fd)) ∧
    (∀ p e, pendingPhase ar hdrs = .ok p → tryCurrents ar [CURRENT, CURRENT_bak] = .error e →
      (e = .ErrNotExist ∨ isCorrupted e = true) → GetMeta ar = .ok p.fd) ∧
    (∀ s e, pendingPhase ar hdrs = .error e → (e = .ErrNotExist ∨ isCorrupted e = true) →
      tryCurrents ar [CURRENT, CURRENT_bak] = .ok s → GetMeta ar = .ok s.fd) ∧
    (∀ e, pendingPhase ar hdrs = .error e → e ≠ .ErrNotExist → isCorrupted e = false →
      GetMeta ar = .error e) ∧
    (∀ p e, pendingPhase ar hdrs = .ok p → tryCurrents ar [CURRENT, CURRENT_bak] = .error e →
      e ≠ .ErrNotExist → isCorrupted e = false → GetMeta ar = .error e) ∧
    (∀ pe e, pendingPhase ar hdrs = .error pe → (pe = .ErrNotExist ∨ isCorrupted pe = true) →
      tryCurrents ar [CURRENT, CURRENT_bak] = .error e →
      e ≠ .ErrNotExist → isCorrupted e = false → GetMeta ar = .error e) := by
  have soft : ∀ e : Error, (e = .ErrNotExist ∨ isCorrupted e = true) →
      isFatal (.error e) = false := by
    intro e he
    rcases he with h | h
    · subst h; rfl
    · cases e <;> simp_all [isFatal, isCorrupted]
  have fatal : ∀ e : Error, e ≠ .ErrNotExist → isCorrupted e = false →
      isFatal (.error e) = true := by
    intro e h1 h2
    simp [isFatal, h1, h2]
  refine ⟨?_, ?_, ?_, ?_, ?_, ?_⟩
  · intro p s hp hs
    simp only [GetMeta, hl, GetMetaOf, hp, hs]
    split <;> rfl
  · intro p e hp hs he
    simp [GetMeta, hl, GetMetaOf, hp, hs, soft e he]
  · intro s e hp he hs
    simp [GetMeta, hl, GetMetaOf, hp, hs, soft e he]
  · intro e hp h1 h2
    simp [GetMeta, hl, GetMetaOf, hp, fatal e h1 h2]
  · intro p e hp hs h1 h2
    simp [GetMeta, hl, GetMetaOf, hp, hs, fatal e h1 h2]
  · intro pe e hp hpe hs h1 h2
    simp [GetMeta, hl, GetMetaOf, hp, hs, soft pe hpe, fatal e h1 h2]

theorem GetMeta_precedence_witness :
    GetMeta arPending7 = .ok ⟨TypeManifest, 7⟩ ∧ GetMeta arPending3 = .ok ⟨TypeManifest, 5⟩ :=
  ⟨(GetMeta_precedence arPending7
      ["CURRENT.7".toList, "CURRENT".toList, "MANIFEST-000007".toList, "MANIFEST-000005".toList]
      rfl).1 ⟨"CURRENT.7".toList, ⟨TypeManifest, 7⟩⟩ ⟨CURRENT, ⟨TypeManifest, 5⟩⟩
      (by decide) (by decide),
   (GetMeta_precedence arPending3
      ["CURRENT.3".toList, "CURRENT".toList, "MANIFEST-000003".toList, "MANIFEST-000005".toList]
      rfl).1 ⟨"CURRENT.3".toList, ⟨TypeManifest, 3⟩⟩ ⟨CURRENT, ⟨TypeManifest, 5⟩⟩
      (by decide) (by decide)⟩

/-- C4: corruption fallback. With the listing read, when CURRENT opens and holds a decodable
name followed by a newline, the file that the primary encoding of the decoded descriptor
fd names opens, and every pending candidate fails with corrupted or not-exist, GetMeta
returns fd with no error. -/
theorem GetMeta_corruption_fallback (ar : Reader) (hdrs : List GoString)
    (nm target : GoString) (fp f : FileReader) (fd : FileDesc)
    (hl : ar.List = .ok hdrs)
    (hopen : ar.Open CURRENT = .ok fp) (hread : fp.ReadAll = .ok (nm ++ [NL]))
    (hdec : fsParseName nm = (fd, true))
    (hgen : fsGenName fd = some target) (htarget : ar.Open target = .ok f)
    (hpend : ∀ y ∈ pendNames (pendingNums hdrs), softFail ar y) :
    GetMeta ar = .ok fd := by
  have hcur := tryCurrent_valid ar CURRENT nm target fp f fd hopen hread hdec hgen htarget
  have hs : tryCurrents ar [CURRENT, CURRENT_bak] = .ok ⟨CURRENT, fd⟩ :=
    tryCurrentsLoop_first_ok ar [] CURRENT [CURRENT_bak] _ none (by simp) hcur
  exact GetMeta_stable_only ar hdrs _ hl (pendingPhase_soft ar hdrs hpend) hs

theorem GetMeta_corruption_fallback_witness :
    GetMeta arCorrupt9 = .ok ⟨TypeManifest, 4⟩ :=
  GetMeta_corruption_fallback arCorrupt9
    ["CURRENT.9".toList, "CURRENT".toList, "MANIFEST-000004".toList]
    "MANIFEST-000004".toList "MANIFEST-000004".toList ⟨.ok "MANIFEST-000004\n".toList⟩ ⟨.ok []⟩
    ⟨TypeManifest, 4⟩ rfl rfl rfl (by decide) (by decide) rfl (by decide)

/-- C5, as stated, fails: in the archive whose only entry is a malformed CURRENT, no
candidate succeeds and the last attempt on the stable pair, CURRENT.bak, ends in not-exist,
yet GetMeta fails with the corrupted error of CURRENT and not with not-exist. -/
theorem GetMeta_last_attempt_counterexample :
    arCorruptCurrent.List = .ok ["CURRENT".toList] ∧
    candidates ["CURRENT".toList] = [CURRENT, CURRENT_bak] ∧
    tryCurrent arCorruptCurrent CURRENT = .error errCorruptedCurrent ∧
    tryCurrent arCorruptCurrent CURRENT_bak = .error .ErrNotExist ∧
    GetMeta arCorruptCurrent = .error errCorruptedCurrent ∧
    GetMeta arCorruptCurrent ≠ .error .ErrNotExist := by
  refine ⟨rfl, by decide, by decide, by decide, by decide, by decide⟩

/-- C5, amended: when no candidate succeeds, every probe (of the pending names, of CURRENT
and of CURRENT.bak) ending in not-exist or corrupted, GetMeta fails with the corrupted
error if any of these probes, not only the last one, ended in corrupted, and with
not-exist otherwise. -/
theorem GetMeta_failure_classification (ar : Reader) (hdrs : List GoString)
    (hl : ar.List = .ok hdrs) (hall : ∀ y ∈ candidates hdrs, softFail ar y) :
    ((∃ y ∈ candidates hdrs, tryCurrent ar y = .error errCorruptedCurrent) →
      GetMeta ar = .error errCorruptedCurrent ∧ isCorrupted errCorruptedCurrent = true) ∧
    ((∀ y ∈ candidates hdrs, tryCurrent ar y = .error .ErrNotExist) →
      GetMeta ar = .error .ErrNotExist) := by
  obtain ⟨h1, h2⟩ := GetMeta_all_soft ar hdrs hl hall
  refine ⟨fun hex => ⟨h1 hex, rfl⟩, fun hne => h2 ?_⟩
  rintro ⟨y, hy, hyc⟩
  rw [hne y hy] at hyc
  cases hyc

theorem GetMeta_failure_classification_witness :
    GetMeta arCorruptCurrent = .error errCorruptedCurrent ∧
      isCorrupted errCorruptedCurrent = true :=
  (GetMeta_failure_classification arCorruptCurrent ["CURRENT".toList] rfl (by decide)).1
    ⟨CURRENT, by decide, by decide⟩

/-- C6: absent versus damaged. With the listing read, when no candidate succeeds and every
probe ends in not-exist or corrupted, GetMeta fails; its error is a corrupted error exactly
when some probed pointer file (a pending name, CURRENT or CURRENT.bak) opens, reads and
has a malformed content, and is the not-exist error otherwise. -/
theorem GetMeta_absent_versus_damaged (ar : Reader) (hdrs : List GoString)
    (hl : ar.List = .ok hdrs) (hall : ∀ y ∈ candidates hdrs, softFail ar y) :
    ∃ e, GetMeta ar = .error e ∧
      (isCorrupted e = true ↔
        ∃ y ∈ candidates hdrs, ∃ fp b, ar.Open y = .ok fp ∧ fp.ReadAll = .ok b ∧ malformed b) ∧
      (isCorrupted e = false → e = .ErrNotExist) := by
  obtain ⟨h1, h2⟩ := GetMeta_all_soft ar hdrs hl hall
  by_cases hex : ∃ y ∈ candidates hdrs, tryCurrent ar y = .error errCorruptedCurrent
  · refine ⟨errCorruptedCurrent, h1 hex, ?_, ?_⟩
    · constructor
      · intro _
        obtain ⟨y, hy, hyc⟩ := hex
        exact ⟨y, hy, (tryCurrent_corrupted_iff ar y).mp hyc⟩
      · intro _; rfl
    · intro h; cases h
  · refine ⟨.ErrNotExist, h2 hex, ?_, fun _ => rfl⟩
    constructor
    · intro h; cases h
    · rintro ⟨y, hy, hm⟩
      exact absurd ⟨y, hy, (tryCurrent_corrupted_iff ar y).mpr hm⟩ hex

theorem GetMeta_absent_versus_damaged_witness :
    ∃ e, GetMeta arDamaged = .error e ∧
      (isCorrupted e = true ↔
        ∃ y ∈ candidates ["CURRENT.2".toList, "CURRENT".toList], ∃ fp b,
          arDamaged.Open y = .ok fp ∧ fp.ReadAll = .ok b ∧ malformed b) ∧
      (isCorrupted e = false → e = .ErrNotExist) :=
  GetMeta_absent_versus_damaged arDamaged ["CURRENT.2".toList, "CURRENT".toList] rfl
    (by decide)

/-- C7, as stated, fails: when CURRENT holds the name of a table file that is in the
archive, GetMeta succeeds with a Table descriptor. -/
theorem GetMeta_table_counterexample :
    GetMeta arTablePointer = .ok ⟨TypeTable, 5⟩ ∧ TypeTable ≠ TypeManifest := by
  constructor <;> decide

/-- C7, amended: whenever GetMeta succeeds, the descriptor it returns is the one
fsParseName decodes from the content, without its final newline, of a probed pointer
file; its type is one of Manifest, Journal, Table and Temp, and it is Manifest when that
content starts with `M` (a name of the form MANIFEST-<n>). -/
theorem GetMeta_ok_decoded (ar : Reader) (fd : FileDesc) (h : GetMeta ar = .ok fd) :
    ∃ hdrs, ar.List = .ok hdrs ∧ ∃ y ∈ candidates hdrs, ∃ fp nm,
      ar.Open y = .ok fp ∧ fp.ReadAll = .ok (nm ++ [NL]) ∧ fsParseName nm = (fd, true) ∧
      validType fd.Typ ∧ (nm.head? = some 'M' → fd.Typ = TypeManifest) := by
  obtain ⟨hdrs, hl, c, hc, hphase⟩ := GetMeta_ok_inv ar fd h
  refine ⟨hdrs, hl, ?_⟩
  have key : ∀ names : List GoString, (∀ y ∈ names, y ∈ candidates hdrs) →
      tryCurrents ar names = .ok c → ∃ y ∈ candidates hdrs, ∃ fp nm,
      ar.Open y = .ok fp ∧ fp.ReadAll = .ok (nm ++ [NL]) ∧ fsParseName nm = (fd, true) ∧
      validType fd.Typ ∧ (nm.head? = some 'M' → fd.Typ = TypeManifest) := by
    intro names hsub hok
    obtain ⟨pre, x, post, hnames, hx, _⟩ := tryCurrentsLoop_ok_inv ar names none c hok
    obtain ⟨_, fp, nm, _, _, hopen, hread, hdec, _, _⟩ := tryCurrent_ok_inv ar x c hx
    rw [hc] at hdec
    refine ⟨x, hsub x (by rw [hnames]; simp), fp, nm, hopen, hread, hdec,
      fsParseName_validType nm fd hdec, ?_⟩
    intro hM
    cases nm with
    | nil => cases hM
    | cons a rest =>
      simp only [List.head?_cons, Option.some.injEq] at hM
      subst hM
      exact fsParseName_M rest fd hdec
  rcases hphase with hp | hs
  · exact key _ (fun y hy => List.mem_append_left _ hy) (pendingPhase_ok_inv ar hdrs c hp)
  · exact key _ (fun y hy => List.mem_append_right _ hy) hs

theorem GetMeta_ok_decoded_witness :
    ∃ hdrs, arPending7.List = .ok hdrs ∧ ∃ y ∈ candidates hdrs, ∃ fp nm,
      arPending7.Open y = .ok fp ∧ fp.ReadAll = .ok (nm ++ [NL]) ∧
      fsParseName nm = (⟨TypeManifest, 7⟩, true) ∧
      validType TypeManifest ∧ (nm.head? = some 'M' → TypeManifest = TypeManifest) :=
  GetMeta_ok_decoded arPending7 ⟨TypeManifest, 7⟩ (by decide)

/-! ## What the scanner consumes -/

theorem SkipSpace_inv (s s1 : List Char) (h : SkipSpace s = some s1) :
    ∃ ws, s = ws ++ s1 ∧ (∀ c ∈ ws, isSpace c = true) ∧
      (∀ c, s1.head? = some c → isSpace c = false) := by
  induction s with
  | nil =>
    simp only [SkipSpace, Option.some.injEq] at h
    subst h
    exact ⟨[], rfl, by simp, by simp⟩
  | cons c cs ih =>
    unfold SkipSpace at h
    split at h
    · rename_i hcr
      obtain ⟨ws, hws, hsp, hhead⟩ := ih h
      refine ⟨c :: ws, by rw [hws]; rfl, ?_, hhead⟩
      intro d hd
      rcases List.mem_cons.mp hd with hd | hd
      · rw [hd, hcr.1]; decide
      · exact hsp d hd
    · split at h
      · cases h
      · split at h
        · rename_i hns
          injection h with h
          subst h
          refine ⟨[], rfl, by simp, ?_⟩
          intro d hd
          simp only [List.head?_cons, Option.some.injEq] at hd
          subst hd
          simpa using hns
        · rename_i hns
          obtain ⟨ws, hws, hsp, hhead⟩ := ih h
          refine ⟨c :: ws, by rw [hws]; rfl, ?_, hhead⟩
          intro d hd
          rcases List.mem_cons.mp hd with hd | hd
          · rw [hd]; simpa using hns
          · exact hsp d hd

theorem scanNumber_inv (s ds rest : List Char) (h : scanNumber s = some (ds, rest)) :
    s = ds ++ rest ∧ ds ≠ [] ∧ (∀ c ∈ ds, isDecimalDigit c = true) := by
  unfold scanNumber at h
  split at h
  · cases h
  · rename_i hne
    injection h with h
    injection h with h1 h2
    subst h1 h2
    exact ⟨(List.takeWhile_append_dropWhile _ _).symm, hne, fun c hc => List.mem_takeWhile_imp hc⟩

/-- The verb %d consumes white space, an optional sign and a non-empty run of digits. -/
theorem scanInt_inv (s rest : List Char) (i : Int) (h : scanInt s = some (i, rest)) :
    ∃ ws sign ds, s = ws ++ sign ++ ds ++ rest ∧ (∀ c ∈ ws, isSpace c = true) ∧
      (sign = [] ∨ sign = ['+'] ∨ sign = ['-']) ∧ ds ≠ [] ∧
      (∀ c ∈ ds, isDecimalDigit c = true) := by
  unfold scanInt at h
  split at h
  · cases h
  · cases h
  · rename_i c cs hskip
    obtain ⟨ws, hws, hsp, _⟩ := SkipSpace_inv s (c :: cs) hskip
    dsimp only at h
    split at h
    · cases h
    · rename_i ds rest2 hnum
      obtain ⟨hs2, hne, hdig⟩ := scanNumber_inv _ ds rest2 hnum
      split at h
      · cases h
      · injection h with h
        injection h with _ hrest
        subst hrest
        by_cases hsign : c = '+' ∨ c = '-'
        · simp only [hsign, if_true] at hs2
          refine ⟨ws, [c], ds, ?_, hsp, ?_, hne, hdig⟩
          · rw [hws, hs2]; simp
          · rcases hsign with h1 | h1
            · exact Or.inr (Or.inl (by rw [h1]))
            · exact Or.inr (Or.inr (by rw [h1]))
        · simp only [hsign, if_false] at hs2
          refine ⟨ws, [], ds, ?_, hsp, Or.inl rfl, hne, hdig⟩
          rw [hws, hs2]; simp

/-- The verb %s consumes white space and the runes up to the next white space. -/
theorem convertString_inv (s tok rest : List Char) (h : convertString s = some (tok, rest)) :
    ∃ ws, s = ws ++ tok ++ rest ∧ (∀ c ∈ ws, isSpace c = true) ∧
      (∀ c, rest.head? = some c → isSpace c = true) := by
  unfold convertString at h
  split at h
  · cases h
  · cases h
  · rename_i s1 _ hskip1
    split at h
    · cases h
    · rename_i s2 hskip2
      injection h with h
      injection h with htok hrest
      obtain ⟨ws1, hws1, hsp1, _⟩ := SkipSpace_inv s s1 hskip1
      obtain ⟨ws2, hws2, hsp2, _⟩ := SkipSpace_inv s1 s2 hskip2
      refine ⟨ws1 ++ ws2, ?_, ?_, ?_⟩
      · rw [hws1, hws2, ← htok, ← hrest]
        simp [List.takeWhile_append_dropWhile]
      · intro c hc
        rcases List.mem_append.mp hc with hc | hc
        · exact hsp1 c hc
        · exact hsp2 c hc
      · intro c hc
        rw [← hrest] at hc
        have := List.head?_dropWhile_not (fun c => !isSpace c) s2
        rw [hc] at this
        simpa using this

/-- The verb %s finds a word when a rune that is no white space comes next. -/
theorem convertString_nonspace (c : Char) (cs : List Char) (hc : isSpace c = false) :
    SkipSpace (c :: cs) = some (c :: cs) ∧ ∃ r, convertString (c :: cs) = some r := by
  have hcr : c ≠ CR := by intro h; rw [h] at hc; revert hc; decide
  have hnl : c ≠ NL := by intro h; rw [h] at hc; revert hc; decide
  have hskip : SkipSpace (c :: cs) = some (c :: cs) := by
    simp [SkipSpace, hcr, hnl, hc]
  refine ⟨hskip, ?_⟩
  simp [convertString, hskip]

theorem matchLiteral_inv (lit s s1 : List Char) (h : matchLiteral lit s = some s1) :
    s = lit ++ s1 := by
  induction lit generalizing s with
  | nil => simp only [matchLiteral, Option.some.injEq] at h; simp [h]
  | cons f fs ih =>
    cases s with
    | nil => cases h
    | cons c cs =>
      unfold matchLiteral at h
      split at h
      · rename_i hfc
        rw [hfc, ih cs h]; rfl
      · cases h

/-- A call with the first format that returns no error has read white space, a signed
number, a dot, white space and a word. -/
theorem Sscanf_d_dot_s_ok_inv (name tail0 : GoString) (num0 : Int)
    (h : (Sscanf_d_dot_s name num0 tail0).err = false) :
    ∃ ws sign ds gap rest : List Char,
      name = ws ++ sign ++ ds ++ '.' :: (gap ++ (Sscanf_d_dot_s name num0 tail0).tail ++ rest) ∧
      (∀ c ∈ ws, isSpace c = true) ∧ (sign = [] ∨ sign = ['+'] ∨ sign = ['-']) ∧
      ds ≠ [] ∧ (∀ c ∈ ds, isDecimalDigit c = true) ∧ (∀ c ∈ gap, isSpace c = true) ∧
      (∀ c, rest.head? = some c → isSpace c = true) := by
  generalize hout : Sscanf_d_dot_s name num0 tail0 = out at h ⊢
  unfold Sscanf_d_dot_s at hout
  split at hout
  · subst hout; cases h
  · rename_i s0 hs0
    obtain ⟨ws0, hws0, hsp0, _⟩ := SkipSpace_inv name s0 hs0
    split at hout
    · subst hout; cases h
    · rename_i i s1 hint
      obtain ⟨ws1, sign, ds, hs1, hsp1, hsign, hne, hdig⟩ := scanInt_inv s0 s1 i hint
      split at hout
      · subst hout; cases h
      · rename_i c s2
        split at hout
        · subst hout; cases h
        · rename_i hdot
          simp only [ne_eq, not_not] at hdot
          subst hdot
          split at hout
          · subst hout; cases h
          · rename_i s3 hs3
            obtain ⟨ws3, hws3, hsp3, _⟩ := SkipSpace_inv s2 s3 hs3
            split at hout
            · subst hout; cases h
            · rename_i tok rest hconv
              obtain ⟨ws4, hws4, hsp4, hrest⟩ := convertString_inv s3 tok rest hconv
              subst hout
              refine ⟨ws0 ++ ws1, sign, ds, ws3 ++ ws4, rest, ?_, ?_, hsign, hne, hdig, ?_, hrest⟩
              · rw [hws0, hs1, hws3, hws4]; simp
              · intro c hc
                rcases List.mem_append.mp hc with hc | hc
                · exact hsp0 c hc
                · exact hsp1 c hc
              · intro c hc
                rcases List.mem_append.mp hc with hc | hc
                · exact hsp3 c hc
                · exact hsp4 c hc

/-- A call with the second format that stores exactly one operand has read MANIFEST-,
white space and a signed number, and no word follows. -/
theorem Sscanf_MANIFEST_d_s_one_inv (name tail0 : GoString) (num0 : Int)
    (h : (Sscanf_MANIFEST_d_s name num0 tail0).n = 1) : manifestShape name := by
  unfold Sscanf_MANIFEST_d_s at h
  split at h
  · cases h
  · rename_i s0 hlit
    have hname := matchLiteral_inv _ name s0 hlit
    split at h
    · cases h
    · rename_i s1 hs1
      obtain ⟨ws1, hws1, hsp1, _⟩ := SkipSpace_inv s0 s1 hs1
      split at h
      · cases h
      · rename_i i s2 hint
        obtain ⟨ws2, sign, ds, hs2, hsp2, hsign, hne, hdig⟩ := scanInt_inv s1 s2 i hint
        refine ⟨ws1 ++ ws2, sign, ds, s2, ?_, ?_, hsign, hne, hdig, ?_⟩
        · rw [hname, hws1, hs2]; simp
        · intro c hc
          rcases List.mem_append.mp hc with hc | hc
          · exact hsp1 c hc
          · exact hsp2 c hc
        · intro c hc
          by_contra hsp
          have hsp2 : isSpace c = false := by simpa using hsp
          cases s2 with
          | nil => cases hc
          | cons d rest =>
            simp only [List.head?_cons, Option.some.injEq] at hc
            subst hc
            obtain ⟨hskip, r, hr⟩ := convertString_nonspace d rest hsp2
            simp only [hskip, hr] at h
            cases h

/-- C8, as stated, fails: fsParseName accepts a signed number, leading white space, white
space after the dot, text after a white space, and MANIFEST-<n> followed by white space. -/
theorem fsParseName_signed_counterexample :
    fsParseName "+1.ldb".toList = (⟨TypeTable, 1⟩, true) ∧
    fsParseName "-1.log".toList = (⟨TypeJournal, -1⟩, true) ∧
    fsParseName " 000001.ldb".toList = (⟨TypeTable, 1⟩, true) ∧
    fsParseName "000001.ldb x".toList = (⟨TypeTable, 1⟩, true) ∧
    fsParseName "MANIFEST-000001 ".toList = (⟨TypeManifest, 1⟩, true) := by
  refine ⟨by decide, by decide, by decide, by decide, by decide⟩

/-- C8, amended: fsParseName returns ok = true only if the name is optional white space, an
optional sign, decimal digits, a dot, optional white space and one of log, ldb, sst, tmp
(with a Journal, Table or Temp type), or MANIFEST- followed by optional white space, an
optional sign and decimal digits (with type Manifest), and in both cases ends there or goes
on with a white-space rune; every other string is rejected. -/
theorem fsParseName_ok_shape (name : GoString) (fd : FileDesc)
    (h : fsParseName name = (fd, true)) :
    (numericShape name ∧
      (fd.Typ = TypeJournal ∨ fd.Typ = TypeTable ∨ fd.Typ = TypeTemp)) ∨
    (manifestShape name ∧ fd.Typ = TypeManifest) := by
  unfold fsParseName at h
  simp only at h
  split at h
  · rename_i herr
    left
    have herr2 : (Sscanf_d_dot_s name 0 []).err = false := by simpa using herr
    obtain ⟨ws, sign, ds, gap, rest, hname, hws, hsign, hne, hdig, hgap, hrest⟩ :=
      Sscanf_d_dot_s_ok_inv name [] 0 herr2
    have shape : ∀ ext : List Char, (Sscanf_d_dot_s name 0 []).tail = ext →
        (ext = ['l', 'o', 'g'] ∨ ext = ['l', 'd', 'b'] ∨ ext = ['s', 's', 't'] ∨
          ext = ['t', 'm', 'p']) → numericShape name := by
      intro ext hext hcases
      rw [hext] at hname
      exact ⟨ws, sign, ds, gap, ext, rest, hname, hws, hsign, hne, hdig, hgap, hcases, hrest⟩
    split at h
    · rename_i ht
      injection h with h _; subst h
      exact ⟨shape _ ht (Or.inl rfl), Or.inl rfl⟩
    · split at h
      · rename_i ht
        injection h with h _; subst h
        refine ⟨?_, Or.inr (Or.inl rfl)⟩
        rcases ht with ht | ht
        · exact shape _ ht (Or.inr (Or.inl rfl))
        · exact shape _ ht (Or.inr (Or.inr (Or.inl rfl)))
      · split at h
        · rename_i ht
          injection h with h _; subst h
          exact ⟨shape _ ht (Or.inr (Or.inr (Or.inr rfl))), Or.inr (Or.inr rfl)⟩
        · injection h with _ h; cases h
  · split at h
    · rename_i hn
      injection h with h _; subst h
      exact Or.inr ⟨Sscanf_MANIFEST_d_s_one_inv name _ _ hn, rfl⟩
    · injection h with _ h; cases h

theorem fsParseName_ok_shape_witness :
    (numericShape "+1.ldb".toList ∧
      (TypeTable = TypeJournal ∨ TypeTable = TypeTable ∨ TypeTable = TypeTemp)) ∨
    (manifestShape "+1.ldb".toList ∧ TypeTable = TypeManifest) :=
  fsParseName_ok_shape "+1.ldb".toList ⟨TypeTable, 1⟩ (by decide)

/-- Names outside the two shapes are rejected: an unknown extension, text glued to a
valid name, a name without a number. -/
theorem fsParseName_rejects :
    (fsParseName "README.txt".toList).2 = false ∧
    (fsParseName "000001.txt".toList).2 = false ∧
    (fsParseName "000001.ldbx".toList).2 = false ∧
    (fsParseName "x000001.ldb".toList).2 = false ∧
    (fsParseName "MANIFEST-000001x".toList).2 = false ∧
    (fsParseName "xMANIFEST-000001".toList).2 = false ∧
    (fsParseName "CURRENT".toList).2 = false := by
  refine ⟨by decide, by decide, by decide, by decide, by decide, by decide, by decide⟩

/-! ## The order of the pending candidates -/

theorem sortReverse_sorted (nums : List Int) :
    List.Sorted (fun a b : Int => b ≤ a) (sortReverse nums) := by
  haveI : IsTotal Int (fun a b : Int => b ≤ a) := ⟨fun a b => le_total b a⟩
  haveI : IsTrans Int (fun a b : Int => b ≤ a) := ⟨fun _ _ _ hab hbc => le_trans hbc hab⟩
  exact List.sorted_insertionSort _ nums

theorem sortReverse_perm (nums : List Int) : (sortReverse nums).Perm nums :=
  List.perm_insertionSort _ nums

theorem pendNames_eq (nums : List Int) : pendNames nums = (sortReverse nums).map pendName := rfl

/-- The rendering `%d` tells the numbers apart. -/
theorem fmtInt_injective (a b : Int) (h : fmtInt a = fmtInt b) : a = b := by
  have hminus : ∀ k : Nat, '-' ∉ Nat.toDigits 10 k := by
    intro k hk
    have := (toDigits_decimal k).2.1 _ hk
    revert this; decide
  have hval : ∀ j k : Nat, Nat.toDigits 10 j = Nat.toDigits 10 k → j = k := by
    intro j k hjk
    have hj := (toDigits_decimal j).2.2
    rw [hjk, (toDigits_decimal k).2.2] at hj
    exact hj.symm
  unfold fmtInt at h
  by_cases ha : a < 0 <;> by_cases hb : b < 0
  · simp only [ha, hb, if_true, List.cons.injEq, true_and] at h
    have := hval _ _ h
    omega
  · simp only [ha, hb, if_true, if_false] at h
    exact absurd (by rw [← h]; exact List.mem_cons_self _ _) (hminus b.toNat)
  · simp only [ha, hb, if_true, if_false] at h
    exact absurd (by rw [h]; exact List.mem_cons_self _ _) (hminus a.toNat)
  · simp only [ha, hb, if_false] at h
    have := hval _ _ h
    omega

theorem pendName_injective (a b : Int) (h : pendName a = pendName b) : a = b :=
  fmtInt_injective a b (List.append_cancel_left h)

/-- The name fsGenName builds does not start with `C`: it is no pointer file. -/
theorem fsGenName_head (fd : FileDesc) (t : GoString) (h : fsGenName fd = some t) :
    t.head? ≠ some 'C' := by
  have hfmt : ∀ ext : List Char, (fmtInt06 fd.Num ++ ext).head? ≠ some 'C' := by
    intro ext
    unfold fmtInt06
    split
    · simp
    · obtain ⟨hne, hdig, _⟩ := zeroPad_decimal 6 fd.Num.toNat
      cases hz : zeroPad 6 (Nat.toDigits 10 fd.Num.toNat) with
      | nil => exact absurd hz hne
      | cons d ds =>
        have hd : isDecimalDigit d = true := hdig d (by rw [hz]; exact List.mem_cons_self _ _)
        simp only [List.cons_append, List.head?_cons, ne_eq, Option.some.injEq]
        intro hC
        rw [hC] at hd
        revert hd; decide
  unfold fsGenName at h
  split at h
  · injection h with h; subst h; simp
  · split at h
    · injection h with h; subst h; exact hfmt _
    · split at h
      · injection h with h; subst h; exact hfmt _
      · split at h
        · injection h with h; subst h; exact hfmt _
        · cases h

theorem pendName_head (m : Int) : (pendName m).head? = some 'C' := rfl

/-- A probe only depends on the pointer file and on the files fsGenName names. -/
theorem tryCurrent_congr (ar ar2 : Reader) (x : GoString) (hx : ar2.Open x = ar.Open x)
    (ht : ∀ fd t, fsGenName fd = some t → ar2.Open t = ar.Open t) :
    tryCurrent ar2 x = tryCurrent ar x := by
  unfold tryCurrent
  rw [hx]
  split
  · rfl
  · split
    · rfl
    · split
      · rfl
      · dsimp only
        split
        · rfl
        · rename_i target hgen
          rw [ht _ _ hgen]

/-- Over a descending list of suffixes, the loop returns the probe of a suffix that
succeeds when every greater suffix fails softly. -/
theorem tryCurrentsLoop_descending (ar : Reader) (l : List Int) (n : Int) (c : currentFile)
    (last : Option Error) (hsorted : List.Sorted (fun a b : Int => b ≤ a) l) (hn : n ∈ l)
    (hok : tryCurrent ar (pendName n) = .ok c)
    (hgt : ∀ m ∈ l, n < m → softFail ar (pendName m)) :
    tryCurrentsLoop ar (l.map pendName) last = .ok c := by
  induction l generalizing last with
  | nil => cases hn
  | cons a l ih =>
    obtain ⟨hle, hsorted2⟩ := List.sorted_cons.mp hsorted
    by_cases han : a = n
    · subst han
      simp [tryCurrentsLoop, hok]
    · have hnl : n ∈ l := by
        rcases List.mem_cons.mp hn with h | h
        · exact absurd h.symm han
        · exact h
      have hlt : n < a := lt_of_le_of_ne (hle n hnl) (fun h => han h.symm)
      have hrest := fun last => ih last hsorted2 hnl
        (fun m hm hnm => hgt m (List.mem_cons_of_mem _ hm) hnm)
      rcases hgt a (List.mem_cons_self _ _) hlt with h | h
      · simp [tryCurrentsLoop, h, hrest]
      · simp [tryCurrentsLoop, h, errCorruptedCurrent_ne_notExist,
          isCorrupted_errCorruptedCurrent, hrest]

theorem pendingPhase_descending (ar : Reader) (hdrs : List GoString) (n : Int)
    (c : currentFile) (hn : n ∈ pendingNums hdrs)
    (hok : tryCurrent ar (pendName n) = .ok c)
    (hgt : ∀ m ∈ pendingNums hdrs, n < m → softFail ar (pendName m)) :
    pendingPhase ar hdrs = .ok c := by
  have hlen : (pendingNums hdrs).length > 0 := List.length_pos_of_mem hn
  simp only [pendingPhase, hlen, if_true, tryCurrents, pendNames_eq]
  exact tryCurrentsLoop_descending ar _ n c none (sortReverse_sorted _)
    ((sortReverse_perm _).mem_iff.mpr hn) hok
    (fun m hm hnm => hgt m ((sortReverse_perm _).mem_iff.mp hm) hnm)

/-- C9: pending candidates are probed newest first. The suffixes collected from the listing
are put in descending order, all of them, and become the names probed. When the probe
of CURRENT.<n> succeeds with c and the probes of all greater suffixes fail softly, the
pending result is c, whatever number c holds; and it stays c in every archive that differs
only in what it holds under the names CURRENT.<m> with m < n: these are not consulted. -/
theorem pending_newest_first (ar : Reader) (hdrs : List GoString) (n : Int) (c : currentFile)
    (hn : n ∈ pendingNums hdrs)
    (hok : tryCurrent ar (pendName n) = .ok c)
    (hgt : ∀ m ∈ pendingNums hdrs, n < m → softFail ar (pendName m)) :
    List.Sorted (fun a b : Int => b ≤ a) (sortReverse (pendingNums hdrs)) ∧
    (sortReverse (pendingNums hdrs)).Perm (pendingNums hdrs) ∧
    pendNames (pendingNums hdrs) = (sortReverse (pendingNums hdrs)).map pendName ∧
    pendingPhase ar hdrs = .ok c ∧
    ∀ ar2 : Reader,
      (∀ name, (∀ m : Int, m < n → name ≠ pendName m) → ar2.Open name = ar.Open name) →
      pendingPhase ar2 hdrs = .ok c := by
  refine ⟨sortReverse_sorted _, sortReverse_perm _, rfl,
    pendingPhase_descending ar hdrs n c hn hok hgt, ?_⟩
  intro ar2 hagree
  have htarget : ∀ fd t, fsGenName fd = some t → ar2.Open t = ar.Open t := by
    intro fd t hgen
    apply hagree
    intro m _ htm
    have := fsGenName_head fd t hgen
    rw [htm, pendName_head] at this
    exact this rfl
  have hprobe : ∀ m : Int, n ≤ m → tryCurrent ar2 (pendName m) = tryCurrent ar (pendName m) := by
    intro m hnm
    apply tryCurrent_congr ar ar2 _ _ htarget
    apply hagree
    intro k hk hmk
    have := pendName_injective m k hmk
    omega
  apply pendingPhase_descending ar2 hdrs n c hn
  · rw [hprobe n le_rfl]; exact hok
  · intro m hm hnm
    have := hgt m hm hnm
    unfold softFail at this ⊢
    rw [hprobe m (le_of_lt hnm)]
    exact this

theorem pending_newest_first_witness :
    pendingPhase arThreePending
      ["CURRENT.3".toList, "CURRENT.9".toList, "CURRENT.7".toList,
        "MANIFEST-000002".toList, "MANIFEST-000008".toList]
      = .ok ⟨"CURRENT.7".toList, ⟨TypeManifest, 2⟩⟩ :=
  (pending_newest_first arThreePending
      ["CURRENT.3".toList, "CURRENT.9".toList, "CURRENT.7".toList,
        "MANIFEST-000002".toList, "MANIFEST-000008".toList]
      7 ⟨"CURRENT.7".toList, ⟨TypeManifest, 2⟩⟩ (by decide) (by decide) (by decide)).2.2.2.1

/-! ## Pending names that are not in the form `%d` prints -/

/-- ParseInt reads back what `%d` prints, over the int64 range. -/
theorem ParseInt_fmtInt (n : Int) (hlo : -(2 ^ 63) ≤ n) (hhi : n < 2 ^ 63) :
    ParseInt (fmtInt n) = .ok n := by
  unfold fmtInt
  split
  · rename_i hneg
    obtain ⟨hne, hdig, hval⟩ := toDigits_decimal n.natAbs
    have hk : n.natAbs ≤ 2 ^ 63 := by omega
    have hloop := ParseUintLoop_digits (Nat.toDigits 10 n.natAbs) 0 hdig (by
      have : digitsValue (Nat.toDigits 10 n.natAbs) = n.natAbs := hval
      simp only [digitsValue] at this
      rw [this]
      simp only [maxUint64]
      omega)
    have hval2 : List.foldl (fun a c => a * 10 + digitVal c) 0 (Nat.toDigits 10 n.natAbs)
        = n.natAbs := hval
    rw [hval2] at hloop
    have hgt : ¬ (n.natAbs > 2 ^ 63) := by omega
    have hm : ¬ ('-' = '+') := by decide
    simp only [ParseInt, hm, false_or, if_true, ParseUint, hne, if_false, hloop,
      decide_True, Bool.not_true, Bool.false_and, Bool.false_eq_true, Bool.true_and,
      decide_eq_true_eq, hgt]
    congr 1
    omega
  · rename_i hneg
    obtain ⟨hne, hdig, hval⟩ := toDigits_decimal n.toNat
    have hlt : digitsValue (Nat.toDigits 10 n.toNat) < 2 ^ 63 := by rw [hval]; omega
    rw [ParseInt_digits _ hne hdig hlt, hval]
    congr 1
    omega

/-- An entry whose name is `CURRENT.%d` of an int64 puts that number among the suffixes. -/
theorem pendName_mem_pendingNums (hdrs : List GoString) (n : Int) (hlo : -(2 ^ 63) ≤ n)
    (hhi : n < 2 ^ 63) (h : pendName n ∈ hdrs) : n ∈ pendingNums hdrs := by
  induction hdrs with
  | nil => cases h
  | cons name rest ih =>
    have hmono : ∀ m, m ∈ pendingNums rest → m ∈ pendingNums (name :: rest) := by
      intro m hm
      unfold pendingNums
      split
      · split
        · exact List.mem_cons_of_mem _ hm
        · exact hm
      · exact hm
    rcases List.mem_cons.mp h with hname | hrest
    · subst hname
      have hpre : CURRENT_dot.isPrefixOf (pendName n) = true := by
        simp [pendName]
      have hbak : pendName n ≠ CURRENT_bak := by
        intro hb
        have hb2 : CURRENT_dot ++ fmtInt n = CURRENT_dot ++ ['b', 'a', 'k'] := hb
        have h2 : fmtInt n = ['b', 'a', 'k'] := List.append_cancel_left hb2
        have h3 := ParseInt_fmtInt n hlo hhi
        rw [h2] at h3
        have h4 : ParseInt ['b', 'a', 'k'] = .error .ErrSyntax := by decide
        rw [h4] at h3
        cases h3
      have hdrop : (pendName n).drop 8 = fmtInt n := by
        simp [pendName, CURRENT_dot]
      unfold pendingNums
      simp only [hpre, hbak, ne_eq, not_false_eq_true, and_self, if_true, hdrop,
        ParseInt_fmtInt n hlo hhi]
      exact List.mem_cons_self _ _
    · exact hmono n (ih hrest)

/-- C10, on the code: the archive whose only pointer file is CURRENT.007, a suffix the
classifier reads as 7, with a valid content that names manifest 7 and manifest 7 in the
archive. The name probed is CURRENT.7, which does not exist, and GetMeta fails with
not-exist; the same content under the name CURRENT.7 is found. -/
theorem GetMeta_noncanonical_suffix :
    arNonCanonical.List = .ok ["CURRENT.007".toList, "MANIFEST-000007".toList] ∧
    pendingNums ["CURRENT.007".toList, "MANIFEST-000007".toList] = [7] ∧
    pendNames [7] = ["CURRENT.7".toList] ∧
    tryCurrent arNonCanonical "CURRENT.007".toList
      = .ok ⟨"CURRENT.007".toList, ⟨TypeManifest, 7⟩⟩ ∧
    tryCurrent arNonCanonical "CURRENT.7".toList = .error .ErrNotExist ∧
    GetMeta arNonCanonical = .error .ErrNotExist ∧
    GetMeta arCanonical = .ok ⟨TypeManifest, 7⟩ := by
  refine ⟨rfl, by decide, by decide, by decide, by decide, by decide, by decide⟩

/-- The entries CURRENT.<n> whose suffix is in the form `%d` prints are probed: when such
an entry is listed, holds a decodable name and a newline naming a descriptor whose file
opens, and no other candidate exists, GetMeta returns that descriptor. -/
theorem GetMeta_pending_only (ar : Reader) (hdrs : List GoString) (n : Int)
    (nm target : GoString) (fp f : FileReader) (fd : FileDesc)
    (hl : ar.List = .ok hdrs) (hlo : -(2 ^ 63) ≤ n) (hhi : n < 2 ^ 63)
    (hmem : pendName n ∈ hdrs)
    (hopen : ar.Open (pendName n) = .ok fp) (hread : fp.ReadAll = .ok (nm ++ [NL]))
    (hdec : fsParseName nm = (fd, true))
    (hgen : fsGenName fd = some target) (htarget : ar.Open target = .ok f)
    (hothers : ∀ m ∈ pendingNums hdrs, m ≠ n → ar.Open (pendName m) = .error .ErrNotExist)
    (hcur : ar.Open CURRENT = .error .ErrNotExist)
    (hbak : ar.Open CURRENT_bak = .error .ErrNotExist) :
    GetMeta ar = .ok fd := by
  have hprobe := tryCurrent_valid ar (pendName n) nm target fp f fd hopen hread hdec hgen htarget
  have hp : pendingPhase ar hdrs = .ok ⟨pendName n, fd⟩ := by
    apply pendingPhase_descending ar hdrs n _ (pendName_mem_pendingNums hdrs n hlo hhi hmem) hprobe
    intro m hm hnm
    left
    simp [tryCurrent, hothers m hm (by omega), notExistToOs]
  have hs : tryCurrents ar [CURRENT, CURRENT_bak] = .error .ErrNotExist := by
    apply tryCurrentsLoop_all_notExist
    intro y hy
    simp only [List.mem_cons, List.mem_singleton, List.not_mem_nil, or_false] at hy
    rcases hy with hy | hy <;> subst hy
    · simp [tryCurrent, hcur, notExistToOs]
    · simp [tryCurrent, hbak, notExistToOs]
  simp [GetMeta, hl, GetMetaOf, hp, hs, isFatal]

/-! ## The stable pair, dangling targets and empty archives -/

theorem validPointer_tryCurrent (ar : Reader) (name : GoString) (fd : FileDesc)
    (h : validPointer ar name fd) : tryCurrent ar name = .ok ⟨name, fd⟩ := by
  obtain ⟨fp, nm, target, f, hopen, hread, hdec, hgen, htarget⟩ := h
  exact tryCurrent_valid ar name nm target fp f fd hopen hread hdec hgen htarget

/-- A pointer file that does not exist makes the probe end in not-exist. -/
theorem tryCurrent_absent (ar : Reader) (name : GoString)
    (h : ar.Open name = .error .ErrNotExist) : tryCurrent ar name = .error .ErrNotExist := by
  simp [tryCurrent, h, notExistToOs]

/-- C11, as stated, fails: no pending candidate succeeds, the probe of CURRENT.9 failing on
an error that is neither not-exist nor corrupted, and CURRENT is a valid pointer to
manifest 4; GetMeta returns the error of the pending probe and not that descriptor. -/
theorem GetMeta_fatal_pending_counterexample :
    arFatalPending.List = .ok ["CURRENT.9".toList, "CURRENT".toList, "MANIFEST-000004".toList] ∧
    pendNames (pendingNums ["CURRENT.9".toList, "CURRENT".toList, "MANIFEST-000004".toList])
      = ["CURRENT.9".toList] ∧
    tryCurrent arFatalPending "CURRENT.9".toList = .error (.saar (.other 13)) ∧
    tryCurrent arFatalPending CURRENT = .ok ⟨CURRENT, ⟨TypeManifest, 4⟩⟩ ∧
    GetMeta arFatalPending = .error (.saar (.other 13)) ∧
    GetMeta arFatalPending ≠ .ok ⟨TypeManifest, 4⟩ := by
  refine ⟨rfl, by decide, by decide, by decide, by decide, by decide⟩

/-- C11, amended: order of the stable pair. With the listing read and every pending
candidate ending in not-exist or corrupted: when CURRENT is a valid pointer to fd, GetMeta
returns fd, whatever CURRENT.bak holds; when the probe of CURRENT ends in not-exist or
corrupted and CURRENT.bak is a valid pointer to fd, GetMeta returns fd. -/
theorem GetMeta_stable_pair_order (ar : Reader) (hdrs : List GoString) (fd : FileDesc)
    (hl : ar.List = .ok hdrs)
    (hpend : ∀ y ∈ pendNames (pendingNums hdrs), softFail ar y)
    (hstable : validPointer ar CURRENT fd ∨
      (softFail ar CURRENT ∧ validPointer ar CURRENT_bak fd)) :
    GetMeta ar = .ok fd := by
  have hp := pendingPhase_soft ar hdrs hpend
  rcases hstable with hcur | ⟨hcur, hbak⟩
  · have hs : tryCurrents ar [CURRENT, CURRENT_bak] = .ok ⟨CURRENT, fd⟩ :=
      tryCurrentsLoop_first_ok ar [] CURRENT [CURRENT_bak] _ none (by simp)
        (validPointer_tryCurrent ar CURRENT fd hcur)
    exact GetMeta_stable_only ar hdrs _ hl hp hs
  · have hs : tryCurrents ar [CURRENT, CURRENT_bak] = .ok ⟨CURRENT_bak, fd⟩ :=
      tryCurrentsLoop_first_ok ar [CURRENT] CURRENT_bak [] _ none
        (by intro y hy; rw [List.mem_singleton] at hy; rw [hy]; exact hcur)
        (validPointer_tryCurrent ar CURRENT_bak fd hbak)
    exact GetMeta_stable_only ar hdrs _ hl hp hs

theorem GetMeta_stable_pair_order_witness :
    GetMeta arFresh = .ok ⟨TypeManifest, 0⟩ ∧ GetMeta arBakHigher = .ok ⟨TypeManifest, 5⟩ ∧
      GetMeta arBakOnly = .ok ⟨TypeManifest, 6⟩ :=
  ⟨GetMeta_stable_pair_order arFresh
      ["000001.log".toList, "CURRENT".toList, "LOCK".toList, "LOG".toList,
        "MANIFEST-000000".toList]
      ⟨TypeManifest, 0⟩ rfl (by decide)
      (Or.inl ⟨⟨.ok "MANIFEST-000000\n".toList⟩, "MANIFEST-000000".toList,
        "MANIFEST-000000".toList, ⟨.ok "m".toList⟩, rfl, rfl, by decide, by decide, rfl⟩),
   GetMeta_stable_pair_order arBakHigher
      ["CURRENT".toList, "CURRENT.bak".toList, "MANIFEST-000005".toList,
        "MANIFEST-000009".toList]
      ⟨TypeManifest, 5⟩ rfl (by decide)
      (Or.inl ⟨⟨.ok "MANIFEST-000005\n".toList⟩, "MANIFEST-000005".toList,
        "MANIFEST-000005".toList, ⟨.ok []⟩, rfl, rfl, by decide, by decide, rfl⟩),
   GetMeta_stable_pair_order arBakOnly
      ["CURRENT".toList, "CURRENT.bak".toList, "MANIFEST-000006".toList]
      ⟨TypeManifest, 6⟩ rfl (by decide)
      (Or.inr ⟨by decide, ⟨.ok "MANIFEST-000006\n".toList⟩, "MANIFEST-000006".toList,
        "MANIFEST-000006".toList, ⟨.ok []⟩, rfl, rfl, by decide, by decide, rfl⟩)⟩

/-- C12: dangling target. When a pointer file opens, reads and holds a decodable name and
a newline, and the file that the primary encoding of the decoded descriptor names does
not exist, the probe ends in not-exist, which is no corrupted error; and when that pointer
file is CURRENT and no other candidate exists, GetMeta fails with not-exist. -/
theorem tryCurrent_dangling (ar : Reader) (name nm target : GoString) (fp : FileReader)
    (fd : FileDesc)
    (hopen : ar.Open name = .ok fp) (hread : fp.ReadAll = .ok (nm ++ [NL]))
    (hdec : fsParseName nm = (fd, true)) (hgen : fsGenName fd = some target)
    (habsent : ar.Open target = .error .ErrNotExist) :
    tryCurrent ar name = .error .ErrNotExist ∧ isCorrupted .ErrNotExist = false ∧
      tryCurrent ar name ≠ .error errCorruptedCurrent ∧
      ∀ hdrs, name = CURRENT → ar.List = .ok hdrs →
        (∀ y ∈ pendNames (pendingNums hdrs), ar.Open y = .error .ErrNotExist) →
        ar.Open CURRENT_bak = .error .ErrNotExist →
        GetMeta ar = .error .ErrNotExist := by
  have h1 : ¬ ((nm ++ [NL]).length < 1) := by simp
  have h2 : ¬ ((nm ++ [NL]).getLast? ≠ some NL) := by simp
  have h3 : (nm ++ [NL]).dropLast = nm := by simp
  have hprobe : tryCurrent ar name = .error .ErrNotExist := by
    simp only [tryCurrent, hopen, hread, h1, h2, h3, hdec, false_or, Bool.true_eq_false,
      if_false, hgen, habsent, notExistToOs]
  refine ⟨hprobe, rfl, ?_, ?_⟩
  · rw [hprobe]
    intro h
    injection h with h
    exact errCorruptedCurrent_ne_notExist h.symm
  · intro hdrs hname hl hpend hbak
    subst hname
    have hall : ∀ y ∈ candidates hdrs, tryCurrent ar y = .error .ErrNotExist := by
      intro y hy
      rcases List.mem_append.mp hy with hy | hy
      · exact tryCurrent_absent ar y (hpend y hy)
      · simp only [List.mem_cons, List.mem_singleton, List.not_mem_nil, or_false] at hy
        rcases hy with hy | hy <;> subst hy
        · exact hprobe
        · exact tryCurrent_absent ar _ hbak
    refine (GetMeta_all_soft ar hdrs hl (fun y hy => Or.inl (hall y hy))).2 ?_
    rintro ⟨y, hy, hyc⟩
    rw [hall y hy] at hyc
    injection hyc with hyc
    exact errCorruptedCurrent_ne_notExist hyc.symm

theorem tryCurrent_dangling_witness :
    tryCurrent arDangling CURRENT = .error .ErrNotExist ∧
      GetMeta arDangling = .error .ErrNotExist :=
  have h := tryCurrent_dangling arDangling CURRENT "MANIFEST-000003".toList
    "MANIFEST-000003".toList ⟨.ok "MANIFEST-000003\n".toList⟩ ⟨TypeManifest, 3⟩
    rfl rfl (by decide) (by decide) rfl
  ⟨h.1, h.2.2.2 ["CURRENT".toList, "000001.log".toList] rfl rfl (by decide) rfl⟩

theorem pendingNums_no_CURRENT (hdrs : List GoString)
    (hno : ∀ name ∈ hdrs, CURRENT.isPrefixOf name = false) : pendingNums hdrs = [] := by
  induction hdrs with
  | nil => rfl
  | cons name rest ih =>
    have hrest := ih (fun n hn => hno n (List.mem_cons_of_mem _ hn))
    have hname := hno name (List.mem_cons_self _ _)
    have hdot : ¬ (CURRENT_dot.isPrefixOf name = true) := by
      intro h
      have h1 : CURRENT_dot <+: name := List.isPrefixOf_iff_prefix.mp h
      have h2 : CURRENT <+: CURRENT_dot := ⟨['.'], rfl⟩
      have h3 : CURRENT.isPrefixOf name = true := List.isPrefixOf_iff_prefix.mpr (h2.trans h1)
      rw [hname] at h3
      cases h3
    unfold pendingNums
    simp [hdot, hrest]

/-- C13: total absence. When the listing holds no entry whose name starts with CURRENT, and
so CURRENT and CURRENT.bak do not exist, GetMeta fails with not-exist, whatever the
other entries are. -/
theorem GetMeta_total_absence (ar : Reader) (hdrs : List GoString)
    (hl : ar.List = .ok hdrs)
    (hno : ∀ name ∈ hdrs, CURRENT.isPrefixOf name = false)
    (hcur : ar.Open CURRENT = .error .ErrNotExist)
    (hbak : ar.Open CURRENT_bak = .error .ErrNotExist) :
    GetMeta ar = .error .ErrNotExist := by
  have hnums := pendingNums_no_CURRENT hdrs hno
  have hall : ∀ y ∈ candidates hdrs, tryCurrent ar y = .error .ErrNotExist := by
    intro y hy
    simp only [candidates, hnums, pendNames, sortReverse, List.insertionSort, List.map_nil,
      List.nil_append, List.mem_cons, List.mem_singleton, List.not_mem_nil, or_false] at hy
    rcases hy with hy | hy <;> subst hy
    · exact tryCurrent_absent ar _ hcur
    · exact tryCurrent_absent ar _ hbak
  refine (GetMeta_all_soft ar hdrs hl (fun y hy => Or.inl (hall y hy))).2 ?_
  rintro ⟨y, hy, hyc⟩
  rw [hall y hy] at hyc
  injection hyc with hyc
  exact errCorruptedCurrent_ne_notExist hyc.symm

theorem GetMeta_total_absence_witness : GetMeta arNoPointer = .error .ErrNotExist :=
  GetMeta_total_absence arNoPointer
    ["MANIFEST-000002".toList, "000001.log".toList, "README.txt".toList]
    rfl (by decide) rfl rfl

/-! ## List -/

theorem keeps_iff (ft : FileType) (r : FileDesc × Bool) :
    keeps ft r = true ↔ (r.2 = true ∧ Int.land r.1.Typ ft ≠ 0) := by
  simp [keeps]

/-- The entries the loop of List keeps: decoded, with a type that shares a bit with ft. -/
theorem ListLoop_eq (ft : FileType) (hdrs : List GoString) (fds : List FileDesc) :
    ListLoop ft hdrs fds = fds ++ ((hdrs.map fsParseName).filter (keeps ft)).map Prod.fst := by
  induction hdrs generalizing fds with
  | nil => simp [ListLoop]
  | cons name rest ih =>
    unfold ListLoop
    by_cases h : (fsParseName name).2 = true ∧ Int.land (fsParseName name).1.Typ ft ≠ 0
    · have hk : keeps ft (fsParseName name) = true := (keeps_iff ft _).mpr h
      rw [if_pos h, ih, List.map_cons, List.filter_cons_of_pos hk, List.map_cons,
        List.append_assoc]
      rfl
    · have hk : ¬ (keeps ft (fsParseName name) = true) := fun hk => h ((keeps_iff ft _).mp hk)
      rw [if_neg h, ih, List.map_cons, List.filter_cons_of_neg hk]

/-- What the loop of List returns from an empty slice, by membership. -/
theorem ListLoop_mem (ft : FileType) (hdrs : List GoString) (fd : FileDesc) :
    fd ∈ ListLoop ft hdrs [] ↔
      ∃ name ∈ hdrs, fsParseName name = (fd, true) ∧ Int.land fd.Typ ft ≠ 0 := by
  rw [ListLoop_eq, List.nil_append]
  constructor
  · intro hfd
    obtain ⟨r, hr, hfst⟩ := List.mem_map.mp hfd
    obtain ⟨hmem, hk⟩ := List.mem_filter.mp hr
    obtain ⟨name, hname, hparse⟩ := List.mem_map.mp hmem
    obtain ⟨hok, hland⟩ := (keeps_iff ft r).mp hk
    refine ⟨name, hname, ?_, by rw [← hfst]; exact hland⟩
    rw [hparse]
    exact Prod.ext hfst hok
  · rintro ⟨name, hname, hparse, hland⟩
    refine List.mem_map.mpr ⟨(fd, true), List.mem_filter.mpr ⟨?_, ?_⟩, rfl⟩
    · exact List.mem_map.mpr ⟨name, hname, hparse⟩
    · exact (keeps_iff ft _).mpr ⟨rfl, hland⟩

/-- C14: listing filter. With the listing read, List(ft) succeeds, whatever names the
archive holds, and returns, in the order of the listing, one descriptor for each entry that
fsParseName decodes to a type sharing a bit with ft: a descriptor is returned exactly when
it is the decoding of such an entry, and entries that do not decode add nothing. -/
theorem ListByType_filter (ar : Reader) (hdrs : List GoString) (ft : FileType)
    (hl : ar.List = .ok hdrs) :
    ∃ fds, ListByType ar ft = .ok fds ∧
      fds = ((hdrs.map fsParseName).filter (keeps ft)).map Prod.fst ∧
      (∀ fd, fd ∈ fds ↔
        ∃ name ∈ hdrs, fsParseName name = (fd, true) ∧ Int.land fd.Typ ft ≠ 0) ∧
      fds.length = (hdrs.filter (fun name => keeps ft (fsParseName name))).length := by
  refine ⟨ListLoop ft hdrs [], by simp only [ListByType, hl], ?_, ListLoop_mem ft hdrs, ?_⟩
  · rw [ListLoop_eq]; rfl
  · rw [ListLoop_eq, List.nil_append, List.length_map, List.filter_map, List.length_map]
    rfl

theorem ListByType_filter_witness :
    ∃ fds, ListByType arListing 6 = .ok fds ∧
      fds = ((["README.txt".toList, "000001.log".toList, "000002.ldb".toList,
          "000003.sst".toList, "MANIFEST-000004".toList, "000005.tmp".toList].map
          fsParseName).filter (keeps 6)).map Prod.fst ∧
      (∀ fd, fd ∈ fds ↔
        ∃ name ∈ ["README.txt".toList, "000001.log".toList, "000002.ldb".toList,
          "000003.sst".toList, "MANIFEST-000004".toList, "000005.tmp".toList],
          fsParseName name = (fd, true) ∧ Int.land fd.Typ 6 ≠ 0) ∧
      fds.length = (["README.txt".toList, "000001.log".toList, "000002.ldb".toList,
          "000003.sst".toList, "MANIFEST-000004".toList, "000005.tmp".toList].filter
          (fun name => keeps 6 (fsParseName name))).length :=
  ListByType_filter arListing _ 6 rfl

/-- The listing of the sample archive under the filter Journal|Table. -/
theorem ListByType_sample :
    ListByType arListing 6 = .ok [⟨TypeJournal, 1⟩, ⟨TypeTable, 2⟩, ⟨TypeTable, 3⟩] := by
  decide

/-! ## Open -/

/-- Open on a type without a legacy name: one probe, of the primary name. -/
theorem Open_no_old_name (ar : Reader) (fd : FileDesc) (name : GoString)
    (hgen : fsGenName fd = some name) (hT : fd.Typ ≠ TypeTable) :
    Open ar fd = match ar.Open name with
      | .ok f => .ok f
      | .error e => .error (notExistToOs e) := by
  have hold : fsHasOldName fd = false := by simp [fsHasOldName, hT]
  unfold Open
  rw [hgen]
  dsimp only
  split
  · rfl
  · simp [hold]

/-- C15: Open with legacy fallback. For a descriptor of a valid type, with name its primary
name: Open succeeds when the archive opens name; for a Table whose primary name does not
exist it succeeds when the archive opens the legacy name NNNNNN.sst and fails with
os.ErrNotExist when that does not exist either; for Manifest, Journal and Temp only the
primary name is tried (the result is a function of what the archive does on name alone),
and Open fails with os.ErrNotExist when name does not exist. -/
theorem Open_legacy_fallback (ar : Reader) (fd : FileDesc) (hT : validType fd.Typ) :
    ∃ name, fsGenName fd = some name ∧
      (∀ f, ar.Open name = .ok f → Open ar fd = .ok f) ∧
      (fd.Typ = TypeTable → ar.Open name = .error .ErrNotExist →
        fsGenOldName fd = some (fmtInt06 fd.Num ++ ['.', 's', 's', 't']) ∧
        (∀ f, ar.Open (fmtInt06 fd.Num ++ ['.', 's', 's', 't']) = .ok f → Open ar fd = .ok f) ∧
        (ar.Open (fmtInt06 fd.Num ++ ['.', 's', 's', 't']) = .error .ErrNotExist →
          Open ar fd = .error .ErrNotExist)) ∧
      (fd.Typ ≠ TypeTable →
        (∀ ar2 : Reader, ar2.Open name = ar.Open name → Open ar2 fd = Open ar fd) ∧
        (∀ e, ar.Open name = .error e → Open ar fd = .error (notExistToOs e)) ∧
        (ar.Open name = .error .ErrNotExist → Open ar fd = .error .ErrNotExist)) := by
  obtain ⟨name, hgen⟩ := fsGenName_validType fd hT
  refine ⟨name, hgen, ?_, ?_, ?_⟩
  · intro f hf
    simp only [Open, hgen, hf]
  · intro hTable hne
    have hold : fsHasOldName fd = true := by simp [fsHasOldName, hTable]
    have hgo : fsGenOldName fd = some (fmtInt06 fd.Num ++ ['.', 's', 's', 't']) := by
      simp [fsGenOldName, hTable]
    refine ⟨hgo, ?_, ?_⟩
    · intro f hf
      simp [Open, hgen, hne, hold, hgo, hf]
    · intro hf
      simp [Open, hgen, hne, hold, hgo, hf, notExistToOs]
  · intro hnT
    refine ⟨?_, ?_, ?_⟩
    · intro ar2 h2
      rw [Open_no_old_name ar2 fd name hgen hnT, Open_no_old_name ar fd name hgen hnT, h2]
    · intro e he
      rw [Open_no_old_name ar fd name hgen hnT, he]
    · intro he
      rw [Open_no_old_name ar fd name hgen hnT, he]
      rfl

theorem Open_legacy_fallback_witness :
    Open arListing ⟨TypeTable, 3⟩ = .ok ⟨.ok []⟩ := by
  obtain ⟨name, hgen, _, htable, _⟩ :=
    Open_legacy_fallback arListing ⟨TypeTable, 3⟩ (by decide)
  have hname : name = "000003.ldb".toList := by
    have h2 : fsGenName ⟨TypeTable, 3⟩ = some "000003.ldb".toList := by decide
    rw [h2] at hgen
    exact (Option.some.inj hgen).symm
  subst hname
  exact (htable rfl rfl).2.1 ⟨.ok []⟩ rfl

/-- Open on the sample archive: a primary name, a legacy table name, and names that are
absent for a journal and for a table. -/
theorem Open_samples :
    Open arListing ⟨TypeJournal, 1⟩ = .ok ⟨.ok []⟩ ∧
    Open arListing ⟨TypeTable, 3⟩ = .ok ⟨.ok []⟩ ∧
    Open arListing ⟨TypeJournal, 3⟩ = .error .ErrNotExist ∧
    Open arListing ⟨TypeTable, 7⟩ = .error .ErrNotExist := by
  refine ⟨by decide, by decide, by decide, by decide⟩

/-! ## The mutating methods -/

/-- C16: read-only enforcement. Create, Remove, Rename and SetMeta return the read-only
error for every argument, descriptors of an invalid type included, and leave the archive
as it was: the same listing and the same entries. -/
theorem mutators_read_only (ar : Reader) (fd fd2 : FileDesc) :
    (Create ar fd).2 = .error .errReadOnly ∧ (Remove ar fd).2 = some .errReadOnly ∧
    (Rename ar fd fd2).2 = some .errReadOnly ∧ (SetMeta ar fd).2 = some .errReadOnly ∧
    (Create ar fd).1 = ar ∧ (Remove ar fd).1 = ar ∧ (Rename ar fd fd2).1 = ar ∧
    (SetMeta ar fd).1 = ar ∧
    (Create ar fd).1.List = ar.List ∧ (Remove ar fd).1.List = ar.List ∧
    (Rename ar fd fd2).1.List = ar.List ∧ (SetMeta ar fd).1.List = ar.List :=
  ⟨rfl, rfl, rfl, rfl, rfl, rfl, rfl, rfl, rfl, rfl, rfl, rfl⟩

/-! ## Decoding at any width -/

theorem SkipSpace_digits (ds rest : List Char) (hne : ds ≠ [])
    (hdig : ∀ c ∈ ds, isDecimalDigit c = true) : SkipSpace (ds ++ rest) = some (ds ++ rest) := by
  cases ds with
  | nil => exact absurd rfl hne
  | cons c cs => exact SkipSpace_digit (cs ++ rest) (hdig c (List.mem_cons_self _ _))

/-- The first format on a digit run, a dot and a word. -/
theorem Sscanf_d_dot_s_digits (ds ext : List Char) (hne : ds ≠ [])
    (hdig : ∀ c ∈ ds, isDecimalDigit c = true) (hlt : digitsValue ds < 2 ^ 63)
    (hskip : SkipSpace ext = some ext) (hword : convertString ext = some (ext, [])) :
    Sscanf_d_dot_s (ds ++ '.' :: ext) 0 [] = ⟨2, false, (digitsValue ds : Int), ext⟩ := by
  have hscan := scanInt_digits ds ('.' :: ext) hne hdig hlt (by simp; decide)
  have hsk := SkipSpace_digits ds ('.' :: ext) hne hdig
  simp only [Sscanf_d_dot_s, hsk, hscan, ne_eq, not_true_eq_false, if_false, hskip, hword]

/-- The second format on MANIFEST- and a digit run. -/
theorem Sscanf_MANIFEST_d_s_digits (ds : List Char) (hne : ds ≠ [])
    (hdig : ∀ c ∈ ds, isDecimalDigit c = true) (hlt : digitsValue ds < 2 ^ 63) :
    Sscanf_MANIFEST_d_s (['M', 'A', 'N', 'I', 'F', 'E', 'S', 'T', '-'] ++ ds) 0 []
      = ⟨1, true, (digitsValue ds : Int), []⟩ := by
  have hscan := scanInt_digits ds [] hne hdig hlt (by decide)
  have hsk := SkipSpace_digits ds [] hne hdig
  rw [List.append_nil] at hscan hsk
  have hlit : matchLiteral ['M', 'A', 'N', 'I', 'F', 'E', 'S', 'T', '-']
      (['M', 'A', 'N', 'I', 'F', 'E', 'S', 'T', '-'] ++ ds) = some ds := by
    simp [matchLiteral]
  have hnil : SkipSpace [] = some [] := rfl
  have hconv : convertString [] = none := rfl
  simp only [Sscanf_MANIFEST_d_s, hlit, hsk, hscan, hnil, hconv]

theorem decimalWithZeros_decimal (k n : Nat) :
    decimalWithZeros k n ≠ [] ∧ (∀ c ∈ decimalWithZeros k n, isDecimalDigit c = true) ∧
      digitsValue (decimalWithZeros k n) = n := by
  obtain ⟨hne, hdig, hval⟩ := toDigits_decimal n
  refine ⟨by simp [decimalWithZeros, hne], ?_, ?_⟩
  · intro c hc
    rcases List.mem_append.mp hc with h | h
    · rw [(List.mem_replicate.mp h).2]; decide
    · exact hdig c h
  · simp [decimalWithZeros, digitsValue_replicate_zero, hval]

/-- C17, as stated, fails: 2^63 is a non-negative integer and 9223372036854775808 is its
decimal writing, but the names built on it do not decode, the number being outside int64. -/
theorem fsParseName_overflow_counterexample :
    decimalWithZeros 0 (2 ^ 63) ++ ".log".toList = "9223372036854775808.log".toList ∧
    (fsParseName "9223372036854775808.log".toList).2 = false ∧
    (fsParseName "MANIFEST-9223372036854775808".toList).2 = false ∧
    fsParseName "9223372036854775807.log".toList = (⟨TypeJournal, 2 ^ 63 - 1⟩, true) := by
  refine ⟨by decide, by decide, by decide, by decide⟩

/-- C17, amended: decoding at any width. For every non-negative integer n below 2^63 (an
int64, the type of Num) written in decimal after any number k of leading zeros,
fsParseName maps n.log to (Journal, n), n.ldb and n.sst to (Table, n), n.tmp to (Temp, n)
and MANIFEST-n to (Manifest, n), each with ok = true. -/
theorem fsParseName_any_width (k n : Nat) (h63 : n < 2 ^ 63) :
    fsParseName (decimalWithZeros k n ++ ['.', 'l', 'o', 'g']) = (⟨TypeJournal, n⟩, true) ∧
    fsParseName (decimalWithZeros k n ++ ['.', 'l', 'd', 'b']) = (⟨TypeTable, n⟩, true) ∧
    fsParseName (decimalWithZeros k n ++ ['.', 's', 's', 't']) = (⟨TypeTable, n⟩, true) ∧
    fsParseName (decimalWithZeros k n ++ ['.', 't', 'm', 'p']) = (⟨TypeTemp, n⟩, true) ∧
    fsParseName (['M', 'A', 'N', 'I', 'F', 'E', 'S', 'T', '-'] ++ decimalWithZeros k n)
      = (⟨TypeManifest, n⟩, true) := by
  obtain ⟨hne, hdig, hval⟩ := decimalWithZeros_decimal k n
  have hlt : digitsValue (decimalWithZeros k n) < 2 ^ 63 := by rw [hval]; exact h63
  have hext := fun (ext : List Char) hskip hword =>
    Sscanf_d_dot_s_digits (decimalWithZeros k n) ext hne hdig hlt hskip hword
  rw [hval] at hext
  refine ⟨?_, ?_, ?_, ?_, ?_⟩
  · simp only [fsParseName, hext ['l', 'o', 'g'] (by decide) (by decide)]
    rfl
  · simp only [fsParseName, hext ['l', 'd', 'b'] (by decide) (by decide)]
    rfl
  · simp only [fsParseName, hext ['s', 's', 't'] (by decide) (by decide)]
    rfl
  · simp only [fsParseName, hext ['t', 'm', 'p'] (by decide) (by decide)]
    rfl
  · have h1 := Sscanf_d_dot_s_M (['A', 'N', 'I', 'F', 'E', 'S', 'T', '-'] ++ decimalWithZeros k n)
    have h2 := Sscanf_MANIFEST_d_s_digits (decimalWithZeros k n) hne hdig hlt
    rw [hval] at h2
    simp only [List.cons_append, List.nil_append] at h1 h2
    simp only [fsParseName, List.cons_append, List.nil_append, h1, h2]
    rfl

theorem fsParseName_any_width_witness :
    fsParseName (decimalWithZeros 0 7 ++ ['.', 'l', 'o', 'g']) = (⟨TypeJournal, (7 : Nat)⟩, true) ∧
    fsParseName (decimalWithZeros 0 7 ++ ['.', 'l', 'd', 'b']) = (⟨TypeTable, (7 : Nat)⟩, true) ∧
    fsParseName (decimalWithZeros 0 7 ++ ['.', 's', 's', 't']) = (⟨TypeTable, (7 : Nat)⟩, true) ∧
    fsParseName (decimalWithZeros 0 7 ++ ['.', 't', 'm', 'p']) = (⟨TypeTemp, (7 : Nat)⟩, true) ∧
    fsParseName (['M', 'A', 'N', 'I', 'F', 'E', 'S', 'T', '-'] ++ decimalWithZeros 0 7)
      = (⟨TypeManifest, (7 : Nat)⟩, true) :=
  fsParseName_any_width 0 7 (by decide)

/-! ## The corrupted error -/

theorem tryCurrentsLoop_corrupted_eq (ar : Reader) (names : List GoString)
    (last : Option Error) (e : Error)
    (hlast : ∀ l, last = some l → l = errCorruptedCurrent)
    (h : tryCurrentsLoop ar names last = .error e) (hc : isCorrupted e = true) :
    e = errCorruptedCurrent := by
  induction names generalizing last with
  | nil =>
    unfold tryCurrentsLoop at h
    split at h
    · rename_i l
      injection h with h
      subst h
      exact hlast _ rfl
    · injection h with h
      subst h
      cases hc
  | cons y ys ih =>
    unfold tryCurrentsLoop at h
    split at h
    · cases h
    · rename_i err herr
      split at h
      · exact ih last hlast h
      · split at h
        · rename_i hcorr
          refine ih (some err) ?_ h
          intro l hl
          injection hl with hl
          subst hl
          exact tryCurrent_corrupted_eq ar y _ herr hcorr
        · rename_i hncorr
          injection h with h
          subst h
          exact absurd hc hncorr

theorem pendingPhase_corrupted_eq (ar : Reader) (hdrs : List GoString) (e : Error)
    (h : pendingPhase ar hdrs = .error e) (hc : isCorrupted e = true) :
    e = errCorruptedCurrent := by
  unfold pendingPhase at h
  split at h
  · exact tryCurrentsLoop_corrupted_eq ar _ none e (fun l hl => by cases hl) h hc
  · injection h with h
    subst h
    cases hc

/-- C18, as stated, fails: two archives whose CURRENT files hold different malformed
contents give the same corrupted error, from the probe and from GetMeta. -/
theorem corrupted_error_counterexample :
    arMalformedA.Open CURRENT = .ok ⟨.ok "MANIFEST-000001".toList⟩ ∧
    arMalformedB.Open CURRENT = .ok ⟨.ok "garbage\n".toList⟩ ∧
    "MANIFEST-000001".toList ≠ "garbage\n".toList ∧
    malformed "MANIFEST-000001".toList ∧ malformed "garbage\n".toList ∧
    tryCurrent arMalformedA CURRENT = .error errCorruptedCurrent ∧
    tryCurrent arMalformedB CURRENT = .error errCorruptedCurrent ∧
    GetMeta arMalformedA = .error errCorruptedCurrent ∧
    GetMeta arMalformedB = .error errCorruptedCurrent := by
  refine ⟨rfl, rfl, by decide, by decide, by decide, by decide, by decide, by decide, by decide⟩

/-- C18, amended: every corrupted error that a probe produces, and every corrupted error
that GetMeta returns, is the one fixed error whose message is "leveldb/storage: corrupted
or incomplete CURRENT file"; it holds no part of the content of the pointer file. -/
theorem corrupted_error_constant (ar : Reader) (e : Error) (hc : isCorrupted e = true) :
    (∀ name, tryCurrent ar name = .error e → e = errCorruptedCurrent) ∧
    (GetMeta ar = .error e → e = errCorruptedCurrent) ∧
    errCorruptedCurrent =
      .ErrCorrupted "leveldb/storage: corrupted or incomplete CURRENT file".toList := by
  refine ⟨fun name h => tryCurrent_corrupted_eq ar name e h hc, ?_, rfl⟩
  intro h
  unfold GetMeta at h
  split at h
  · injection h with h
    subst h
    cases hc
  · rename_i hdrs _
    unfold GetMetaOf at h
    split at h
    · rename_i pendErr hp
      split at h
      · injection h with h
        subst h
        exact pendingPhase_corrupted_eq ar hdrs _ hp hc
      · split at h
        · rename_i curErr hs
          split at h
          · injection h with h
            subst h
            exact tryCurrentsLoop_corrupted_eq ar _ none _ (fun l hl => by cases hl) hs hc
          · split at h
            · injection h with h
              subst h
              exact pendingPhase_corrupted_eq ar hdrs _ hp hc
            · injection h with h
              subst h
              exact tryCurrentsLoop_corrupted_eq ar _ none _ (fun l hl => by cases hl) hs hc
        · cases h
    · split at h
      · rename_i curErr hs
        split at h
        · injection h with h
          subst h
          exact tryCurrentsLoop_corrupted_eq ar _ none _ (fun l hl => by cases hl) hs hc
        · cases h
      · split at h <;> cases h

theorem corrupted_error_constant_witness :
    (∀ name, tryCurrent arMalformedA name = .error errCorruptedCurrent →
      errCorruptedCurrent = errCorruptedCurrent) ∧
    (GetMeta arMalformedA = .error errCorruptedCurrent →
      errCorruptedCurrent = errCorruptedCurrent) ∧
    errCorruptedCurrent =
      .ErrCorrupted "leveldb/storage: corrupted or incomplete CURRENT file".toList :=
  corrupted_error_constant arMalformedA errCorruptedCurrent rfl

/-! ## What GetMeta and List return can be opened -/

/-- C19: the resolved descriptor is openable. When GetMeta returns a descriptor, its type is
one of the four valid types, fsGenName gives its name without a panic, and Open succeeds
on it in the same archive. -/
theorem GetMeta_openable (ar : Reader) (fd : FileDesc) (h : GetMeta ar = .ok fd) :
    validType fd.Typ ∧ (∃ name, fsGenName fd = some name) ∧ ∃ f, Open ar fd = .ok f := by
  obtain ⟨hdrs, _, c, hc, hphase⟩ := GetMeta_ok_inv ar fd h
  have key : ∀ names : List GoString, tryCurrents ar names = .ok c →
      validType fd.Typ ∧ (∃ name, fsGenName fd = some name) ∧ ∃ f, Open ar fd = .ok f := by
    intro names hok
    obtain ⟨_, x, _, _, hx, _⟩ := tryCurrentsLoop_ok_inv ar names none c hok
    obtain ⟨_, _, nm, target, f, _, _, hdec, hgen, hf⟩ := tryCurrent_ok_inv ar x c hx
    rw [hc] at hdec hgen
    refine ⟨fsParseName_validType nm fd hdec, ⟨target, hgen⟩, f, ?_⟩
    simp only [Open, hgen, hf]
  rcases hphase with hp | hs
  · exact key _ (pendingPhase_ok_inv ar hdrs c hp)
  · exact key _ hs

theorem GetMeta_openable_witness :
    validType TypeManifest ∧ (∃ name, fsGenName ⟨TypeManifest, 0⟩ = some name) ∧
      ∃ f, Open arFresh ⟨TypeManifest, 0⟩ = .ok f :=
  GetMeta_openable arFresh ⟨TypeManifest, 0⟩ (by decide)

/-- C20, as stated, fails: the entry 5.log is listed as the journal 5, and Open looks for
000005.log, which is not in the archive. -/
theorem ListByType_short_name_counterexample :
    arShortName.Open "5.log".toList = .ok ⟨.ok "data".toList⟩ ∧
    ListByType arShortName TypeJournal = .ok [⟨TypeJournal, 5⟩] ∧
    fsGenName ⟨TypeJournal, 5⟩ = some "000005.log".toList ∧
    Open arShortName ⟨TypeJournal, 5⟩ = .error .ErrNotExist := by
  refine ⟨rfl, by decide, by decide, by decide⟩

/-- C20, amended: a descriptor that List(ft) returns for an entry the archive opens can be
opened when the name of the entry is the primary encoding of the descriptor, or its
legacy encoding while the primary name, if it does not open, does not exist. -/
theorem ListByType_openable (ar : Reader) (hdrs : List GoString) (ft : FileType)
    (fd : FileDesc) (name : GoString) (f : FileReader)
    (hl : ar.List = .ok hdrs) (hname : name ∈ hdrs) (hopen : ar.Open name = .ok f)
    (hdec : fsParseName name = (fd, true)) (hft : Int.land fd.Typ ft ≠ 0)
    (hcanon : fsGenName fd = some name ∨
      (fsGenOldName fd = some name ∧
        ∀ p e, fsGenName fd = some p → ar.Open p = .error e → e = .ErrNotExist)) :
    (∃ fds, ListByType ar ft = .ok fds ∧ fd ∈ fds) ∧ ∃ f2, Open ar fd = .ok f2 := by
  constructor
  · exact ⟨ListLoop ft hdrs [], by simp only [ListByType, hl],
      (ListLoop_mem ft hdrs fd).mpr ⟨name, hname, hdec, hft⟩⟩
  · rcases hcanon with hgen | ⟨hold, hprim⟩
    · exact ⟨f, by simp only [Open, hgen, hopen]⟩
    · obtain ⟨p, hgen⟩ := fsGenName_validType fd (fsParseName_validType name fd hdec)
      by_cases hT : fd.Typ = TypeTable
      · have hhas : fsHasOldName fd = true := by simp [fsHasOldName, hT]
        cases hp : ar.Open p with
        | ok f2 => exact ⟨f2, by simp only [Open, hgen, hp]⟩
        | error e =>
          have he := hprim p e hgen hp
          subst he
          exact ⟨f, by simp [Open, hgen, hp, hhas, hold, hopen]⟩
      · have hsame : fsGenOldName fd = fsGenName fd := by simp [fsGenOldName, hT]
        rw [hsame, hgen] at hold
        injection hold with hold
        subst hold
        exact ⟨f, by simp only [Open, hgen, hopen]⟩

theorem ListByType_openable_witness :
    (∃ fds, ListByType arListing 6 = .ok fds ∧ (⟨TypeTable, 3⟩ : FileDesc) ∈ fds) ∧
      ∃ f2, Open arListing ⟨TypeTable, 3⟩ = .ok f2 :=
  ListByType_openable arListing
    ["README.txt".toList, "000001.log".toList, "000002.ldb".toList, "000003.sst".toList,
      "MANIFEST-000004".toList, "000005.tmp".toList]
    6 ⟨TypeTable, 3⟩ "000003.sst".toList ⟨.ok []⟩ rfl (by decide) rfl (by decide) (by decide)
    (Or.inr ⟨by decide, by
      intro p e hp he
      have h2 : fsGenName ⟨TypeTable, 3⟩ = some "000003.ldb".toList := by decide
      rw [h2] at hp
      have hp2 := Option.some.inj hp
      subst hp2
      have h3 : arListing.Open "000003.ldb".toList = .error .ErrNotExist := rfl
      rw [h3] at he
      injection he with he
      exact he.symm⟩)

end Levelar
